import Mathlib

/-!
# turquoise: segmented queue and promise/future result cell

A shallow embedding of `src/turquoise-details.hpp` (the bin-allocated `Queue`) and of the
promise/future part of `src/turquoise.hpp`, followed by theorems about them.

Conventions of the embedding.

* A C++ call either returns, throws, or has undefined behaviour; `Outcome` records which.
* `unsigned int` is 32 bits wide and `std::size_t` is 64 bits wide (LP64); increments and
  decrements of such fields are taken modulo `2^32` and `2^64`.
* A `std::list` is a list of nodes, each carrying a node identity; an iterator is either the
  identity of a node or `none` for `end()`.  Erasing a node invalidates exactly the iterators
  that carry its identity; dereferencing `end()` or an invalidated iterator is undefined.
* The storage `T data[binCapacity]` of a bin is a list of `binCapacity` slots; a slot is `none`
  until an object has been constructed in it by placement new.
* The union `result_` of a result supplier is the member that holds an object, with that
  object.  Reading another member is undefined, and so is assigning to another member with an
  assignment operator that is not trivial.
* All calls are made by one thread of control.  Locking a `std::mutex` that the thread holds
  and unlocking one that it does not hold are undefined.
-/

namespace turquoise

/-- Result of a C++ call: a normal return, a thrown exception, or undefined behaviour. -/
inductive Outcome (ε α : Type) where
  | returned (a : α)
  | raised (e : ε)
  | undefined
  deriving DecidableEq, Repr

/-- Exception classes that can leave a call of this library. `PromiseError` and `FutureError`
are the classes of `turquoise.hpp` lines 46-66 (with their message); `badOptionalAccess` is
what `std::optional::value()` throws on an empty optional; `user` is an exception stored
through an `std::exception_ptr`. -/
inductive Exn (E : Type) where
  | PromiseError (what : String)
  | FutureError (what : String)
  | badOptionalAccess
  | user (e : E)
  deriving DecidableEq, Repr

/-- Sequencing of two calls: the second runs on what the first returned. -/
def Outcome.bind {ε α β : Type} (x : Outcome ε α) (f : α → Outcome ε β) : Outcome ε β :=
  match x with
  | .returned a => f a
  | .raised e => .raised e
  | .undefined => .undefined

/-- What a call returned, if it returned. -/
def Outcome.result? {ε α : Type} : Outcome ε α → Option α
  | .returned a => some a
  | _ => none

/-- Modulus of `unsigned int` arithmetic. -/
def UINT_MOD : Nat := 2 ^ 32

/-- Modulus of `std::size_t` arithmetic. -/
def SIZE_MOD : Nat := 2 ^ 64

namespace details

/-- Embeds `Queue::Bin` (turquoise-details.hpp lines 19-76): the two `unsigned int` counters and the
slot array. -/
structure Bin (T : Type) where
  size : Nat
  readIndex : Nat
  data : List (Option T)
  deriving DecidableEq, Repr

/-- Embeds `Bin::Bin()`: both counters zero, no slot constructed. -/
def Bin.new {T : Type} (binCapacity : Nat) : Bin T :=
  { size := 0, readIndex := 0, data := List.replicate binCapacity none }

/-- Embeds `Bin::isEmpty`. -/
def Bin.isEmpty {T : Type} (b : Bin T) : Bool := b.size == 0

/-- Embeds `Bin::isFull`: `size == binCapacity`. -/
def Bin.isFull {T : Type} (binCapacity : Nat) (b : Bin T) : Bool := b.size == binCapacity

/-- Embeds `Bin::push` (both overloads construct the element in slot `size`, then `++size`).
Constructing past the end of the array is undefined. -/
def Bin.push {T ε : Type} (b : Bin T) (value : T) : Outcome ε (Bin T) :=
  if b.size < b.data.length then
    .returned { b with data := b.data.set b.size (some value), size := (b.size + 1) % UINT_MOD }
  else
    .undefined

/-- Embeds `Bin::pop`: moves the object out of slot `readIndex`, then `++readIndex`. The moved-from
object stays in its slot. Reading a slot that holds no object, or one past the array, is
undefined. -/
def Bin.pop {T ε : Type} (b : Bin T) : Outcome ε (T × Bin T) :=
  match b.data[b.readIndex]? with
  | some (some v) => .returned (v, { b with readIndex := (b.readIndex + 1) % UINT_MOD })
  | _ => .undefined

/-- Embeds `Bin::canPop`: `readIndex < size`. -/
def Bin.canPop {T : Type} (b : Bin T) : Bool := decide (b.readIndex < b.size)

/-- Nodes of the `std::list<Bin>`: node identity and the bin stored in the node. -/
abbrev Nodes (T : Type) := List (Nat × Bin T)

/-- Dereference of an iterator that carries node identity `it`. -/
def Nodes.deref {T : Type} (it : Nat) : Nodes T → Option (Bin T)
  | [] => none
  | (i, b) :: rest => if i = it then some b else Nodes.deref it rest

/-- Assignment through an iterator: replaces the bin stored in node `it`. -/
def Nodes.assign {T : Type} (it : Nat) (b : Bin T) : Nodes T → Nodes T
  | [] => []
  | (i, c) :: rest => if i = it then (i, b) :: rest else (i, c) :: Nodes.assign it b rest

/-- Embeds `std::list::erase(it)`: unlinks node `it`. -/
def Nodes.erase {T : Type} (it : Nat) : Nodes T → Nodes T
  | [] => []
  | (i, c) :: rest => if i = it then rest else (i, c) :: Nodes.erase it rest

/-- Embeds `std::list::begin()`: the first node, or `end()` when the list is empty. -/
def Nodes.begin {T : Type} : Nodes T → Option Nat
  | [] => none
  | (i, _) :: _ => some i

/-- Embeds `Queue<T, binCapacity>` (turquoise-details.hpp lines 134-139). `fresh_` is the identity
the next allocated list node receives. -/
structure Queue (T : Type) where
  bins_ : Nodes T
  fresh_ : Nat
  size_ : Nat
  readBin_ : Option Nat
  writeBin_ : Option Nat
  deriving DecidableEq, Repr

/-- Embeds `Queue::Queue()`: no bins, `size_ = 0`, both cursors at `end()`. -/
def Queue.new {T : Type} : Queue T :=
  { bins_ := [], fresh_ := 0, size_ := 0, readBin_ := none, writeBin_ := none }

/-- Embeds `Queue::getSize`. -/
def Queue.getSize {T : Type} (q : Queue T) : Nat := q.size_

/-- Embeds `Queue::isEmpty`: `size_ == 0`. -/
def Queue.isEmpty {T : Type} (q : Queue T) : Bool := q.size_ == 0

/-- The `bins_.emplace(bins_.end())` branch of `prepareWriteBin`: appends a new bin and
points the write cursor at it. -/
def Queue.emplaceBin {T : Type} (binCapacity : Nat) (q : Queue T) : Queue T :=
  { q with bins_ := q.bins_ ++ [(q.fresh_, Bin.new binCapacity)],
           fresh_ := q.fresh_ + 1,
           writeBin_ := some q.fresh_ }

/-- Embeds `Queue::prepareWriteBin` (lines 93-99). -/
def Queue.prepareWriteBin {T ε : Type} (binCapacity : Nat) (q : Queue T) : Outcome ε (Queue T) :=
  match q.writeBin_ with
  | none => .returned (q.emplaceBin binCapacity)
  | some w =>
    match q.bins_.deref w with
    | none => .undefined
    | some b =>
      if b.isFull binCapacity then .returned (q.emplaceBin binCapacity) else .returned q

/-- Embeds `writeBin_->push(element)`: the bin push performed through the write cursor. -/
def Queue.writeThrough {T ε : Type} (q : Queue T) (element : T) : Outcome ε (Queue T) :=
  match q.writeBin_ with
  | none => .undefined
  | some w =>
    match q.bins_.deref w with
    | none => .undefined
    | some b =>
      match (Bin.push b element : Outcome ε (Bin T)) with
      | .returned b1 => .returned { q with bins_ := q.bins_.assign w b1 }
      | .raised e => .raised e
      | .undefined => .undefined

/-- Embeds `Queue::push(T&&)` (lines 101-106): prepare, write, `++size_`. -/
def Queue.push {T ε : Type} (binCapacity : Nat) (q : Queue T) (element : T) :
    Outcome ε (Queue T) :=
  match (q.prepareWriteBin binCapacity : Outcome ε (Queue T)) with
  | .returned q1 =>
    match (q1.writeThrough element : Outcome ε (Queue T)) with
    | .returned q2 => .returned { q2 with size_ := (q2.size_ + 1) % SIZE_MOD }
    | .raised e => .raised e
    | .undefined => .undefined
  | .raised e => .raised e
  | .undefined => .undefined

/-- Embeds `Queue::push(const T&)` (lines 108-113): prepare, write, `--size_`. -/
def Queue.pushConstRef {T ε : Type} (binCapacity : Nat) (q : Queue T) (element : T) :
    Outcome ε (Queue T) :=
  match (q.prepareWriteBin binCapacity : Outcome ε (Queue T)) with
  | .returned q1 =>
    match (q1.writeThrough element : Outcome ε (Queue T)) with
    | .returned q2 => .returned { q2 with size_ := (q2.size_ + SIZE_MOD - 1) % SIZE_MOD }
    | .raised e => .raised e
    | .undefined => .undefined
  | .raised e => .raised e
  | .undefined => .undefined

/-- First statement of `Queue::pop` (lines 117-128): position the read cursor. -/
def Queue.prepareReadBin {T ε : Type} (q : Queue T) : Outcome ε (Queue T) :=
  match q.readBin_ with
  | some r =>
    match q.bins_.deref r with
    | none => .undefined
    | some b =>
      if !b.canPop then
        let bins1 := q.bins_.erase r
        .returned { q with bins_ := bins1, readBin_ := bins1.begin }
      else
        .returned q
  | none => .returned { q with readBin_ := q.bins_.begin }

/-- Last statements of `Queue::pop` (lines 130-131): `T result = readBin_->pop(); return
result;`, the bin pop performed through the read cursor. -/
def Queue.readThrough {T ε : Type} (q : Queue T) : Outcome ε (T × Queue T) :=
  match q.readBin_ with
  | none => .undefined
  | some r =>
    match q.bins_.deref r with
    | none => .undefined
    | some b =>
      match (Bin.pop b : Outcome ε (T × Bin T)) with
      | .returned (v, b1) => .returned (v, { q with bins_ := q.bins_.assign r b1 })
      | .raised e => .raised e
      | .undefined => .undefined

/-- Embeds `Queue::pop` (lines 115-132). `size_` is not touched. -/
def Queue.pop {T ε : Type} (q : Queue T) : Outcome ε (T × Queue T) :=
  match (q.prepareReadBin : Outcome ε (Queue T)) with
  | .returned q1 => q1.readThrough
  | .raised e => .raised e
  | .undefined => .undefined

/-- One call made on a queue: either `push` overload, or `pop`. -/
inductive Call (T : Type) where
  | push (element : T)
  | pushConstRef (element : T)
  | pop
  deriving DecidableEq, Repr

/-- The element a call pushes, if it is a push. -/
def Call.pushed {T : Type} : Call T → Option T
  | .push v => some v
  | .pushConstRef v => some v
  | .pop => none

/-- A push call: by const reference when `byConstRef`, else by rvalue reference. -/
def Call.ofPush {T : Type} (p : Bool × T) : Call T :=
  if p.1 then .pushConstRef p.2 else .push p.2

/-- Runs a sequence of calls in program order; the result lists the elements returned by the
`pop` calls, in call order, with the final queue. The first call that throws or is undefined
ends the run with that outcome. -/
def Queue.run {T ε : Type} (binCapacity : Nat) : List (Call T) → Queue T →
    Outcome ε (List T × Queue T)
  | [], q => .returned ([], q)
  | .push v :: cs, q =>
    match (q.push binCapacity v : Outcome ε (Queue T)) with
    | .returned q1 => Queue.run binCapacity cs q1
    | .raised e => .raised e
    | .undefined => .undefined
  | .pushConstRef v :: cs, q =>
    match (q.pushConstRef binCapacity v : Outcome ε (Queue T)) with
    | .returned q1 => Queue.run binCapacity cs q1
    | .raised e => .raised e
    | .undefined => .undefined
  | .pop :: cs, q =>
    match (q.pop : Outcome ε (T × Queue T)) with
    | .returned (v, q1) =>
      match Queue.run binCapacity cs q1 with
      | .returned (out, q2) => .returned (v :: out, q2)
      | .raised e => .raised e
      | .undefined => .undefined
    | .raised e => .raised e
    | .undefined => .undefined

/-- Elements of a bin that were written and not yet read: slots `readIndex .. size - 1`. -/
def Bin.unread {T : Type} (b : Bin T) : List T :=
  ((b.data.take b.size).drop b.readIndex).filterMap id

/-- Unread elements of a chain of bins, front bin first. -/
def Nodes.unread {T : Type} : Nodes T → List T
  | [] => []
  | (_, b) :: rest => b.unread ++ Nodes.unread rest

/-- Unread elements of the queue, oldest first. -/
def Queue.unread {T : Type} (q : Queue T) : List T := q.bins_.unread

/-- Specification model: the queue as a plain list, `push` appends at the back and `pop`
takes the front element; `none` when a `pop` is issued with no unread element. The result
lists the popped elements and the remaining contents. -/
def fifoRun {T : Type} : List (Call T) → List T → Option (List T × List T)
  | [], l => some ([], l)
  | .push v :: cs, l => fifoRun cs (l ++ [v])
  | .pushConstRef v :: cs, l => fifoRun cs (l ++ [v])
  | .pop :: _, [] => none
  | .pop :: cs, x :: l =>
    match fifoRun cs l with
    | some (out, r) => some (x :: out, r)
    | none => none

/-- Number of push calls in a sequence of calls. -/
def countPushes {T : Type} (cs : List (Call T)) : Nat :=
  (cs.filter (fun c => c.pushed.isSome)).length

/-- Number of pop calls in a sequence of calls. -/
def countPops {T : Type} (cs : List (Call T)) : Nat :=
  (cs.filter (fun c => c.pushed.isNone)).length

/-- Relation `Reachable ε binCapacity pushes pops q`: a program reaches state `q` of a queue
with bin capacity `binCapacity` from a freshly constructed queue by `pushes` calls of `push`
(either overload) and `pops` calls of `pop` that returned, in some order. -/
inductive Reachable {T : Type} (ε : Type) (binCapacity : Nat) :
    Nat → Nat → Queue T → Prop where
  | new : Reachable ε binCapacity 0 0 Queue.new
  | push {pushes pops : Nat} {q q1 : Queue T} (v : T) : Reachable ε binCapacity pushes pops q →
      (q.push binCapacity v : Outcome ε (Queue T)) = .returned q1 →
      Reachable ε binCapacity (pushes + 1) pops q1
  | pushConstRef {pushes pops : Nat} {q q1 : Queue T} (v : T) :
      Reachable ε binCapacity pushes pops q →
      (q.pushConstRef binCapacity v : Outcome ε (Queue T)) = .returned q1 →
      Reachable ε binCapacity (pushes + 1) pops q1
  | pop {pushes pops : Nat} {q q1 : Queue T} (v : T) : Reachable ε binCapacity pushes pops q →
      (q.pop : Outcome ε (T × Queue T)) = .returned (v, q1) →
      Reachable ε binCapacity pushes (pops + 1) q1

/-- Bin invariant for capacity `C`: the array has `C` slots, `readIndex <= size <= C`, and
every slot below `size` holds an object. -/
structure Bin.WF {T : Type} (C : Nat) (b : Bin T) : Prop where
  len : b.data.length = C
  read_le : b.readIndex ≤ b.size
  size_le : b.size ≤ C
  written : ∀ i, i < b.size → ∃ v, b.data[i]? = some (some v)

/-- Chain invariant of the queue for capacity `C`: node identities are distinct and older than
`fresh_`; every bin is well formed; the write cursor is the last bin, which is non-empty, and
every bin before it is full; the read cursor is `end()` or the first bin, only the first bin
may have been read from, and no bin has been read from while the read cursor is `end()`. -/
structure Queue.Inv {T : Type} (C : Nat) (q : Queue T) : Prop where
  nodup : (q.bins_.map Prod.fst).Nodup
  fresh : ∀ p ∈ q.bins_, p.1 < q.fresh_
  wf : ∀ p ∈ q.bins_, p.2.WF C
  back : (q.bins_ = [] ∧ q.writeBin_ = none) ∨
    ∃ pre w b, q.bins_ = pre ++ [(w, b)] ∧ q.writeBin_ = some w ∧ 1 ≤ b.size ∧
      ∀ p ∈ pre, p.2.size = C
  tail : ∀ p ∈ q.bins_.tail, p.2.readIndex = 0
  read : q.readBin_ = none ∨ q.readBin_ = q.bins_.begin
  unreadStart : q.readBin_ = none → ∀ p ∈ q.bins_, p.2.readIndex = 0

/-- Every bin of the chain has `size` at most `B`. -/
def Queue.SizesLe {T : Type} (B : Nat) (q : Queue T) : Prop :=
  ∀ p ∈ q.bins_, p.2.size ≤ B

/-- Shape of the states reached with `pushes` pushes and `pops` returned pops when the bin
capacity `C` does not fit the `unsigned int` counters of a bin: the first bin never compares
full, so the chain is empty or a single bin whose counters are the two counts modulo `2^32`. -/
def Queue.Single {T : Type} (C pushes pops : Nat) (q : Queue T) : Prop :=
  (q.bins_ = [] ∧ q.readBin_ = none ∧ q.writeBin_ = none ∧ pushes = 0 ∧ pops = 0) ∨
  ∃ w b, q.bins_ = [(w, b)] ∧ q.writeBin_ = some w ∧ b.size = pushes % UINT_MOD ∧
    b.readIndex = pops % UINT_MOD ∧ b.data.length = C ∧ (pops = 0 → q.readBin_ = none) ∧
    (0 < pops → q.readBin_ = some w) ∧ 0 < pushes

/-- The node that a call of `pop` on `q` erases from the chain, if it erases one: the bin of
the read cursor when `readBin_` is not `end()` and `canPop()` is false (lines 117-123). -/
def Queue.erasedByPop {T : Type} (q : Queue T) : Option (Nat × Bin T) :=
  match q.readBin_ with
  | some r =>
    match q.bins_.deref r with
    | some b => if !b.canPop then some (r, b) else none
    | none => none
  | none => none

end details

/-! ## Promise, Future and the result supplier (`turquoise.hpp`) -/

/-- Modulus of `std::uint16_t` arithmetic. -/
def UINT16_MOD : Nat := 2 ^ 16

/-- Embeds `PromiseResultSupplier::State` (lines 71-76). -/
inductive State where
  | EmptyResult
  | ValueResult
  | ErrorResult
  deriving DecidableEq, Repr

/-- Embeds `PromiseResultSupplier` (lines 68-118): the state and the three `std::uint16_t`
fields. -/
structure PromiseResultSupplier where
  state_ : State
  servedFuturesReferenceCounter_ : Nat
  servedPromisesReferenceCounter_ : Nat
  executorIndex_ : Nat
  deriving DecidableEq, Repr

/-- Embeds `PromiseResultSupplier::PromiseResultSupplier()` (lines 78-84). -/
def PromiseResultSupplier.new : PromiseResultSupplier :=
  { state_ := .EmptyResult,
    servedFuturesReferenceCounter_ := 0,
    servedPromisesReferenceCounter_ := 1,
    executorIndex_ := UINT16_MOD - 1 }

/-- Embeds `PromiseResultSupplier::canDelete`. -/
def PromiseResultSupplier.canDelete (s : PromiseResultSupplier) : Bool :=
  s.servedFuturesReferenceCounter_ == 0 && s.servedPromisesReferenceCounter_ == 0

/-- Embeds `PromiseResultSupplier::increaseFuturesRC`. -/
def PromiseResultSupplier.increaseFuturesRC (s : PromiseResultSupplier) : PromiseResultSupplier :=
  { s with servedFuturesReferenceCounter_ := (s.servedFuturesReferenceCounter_ + 1) % UINT16_MOD }

/-- Embeds `PromiseResultSupplier::decreaseFuturesRC`. -/
def PromiseResultSupplier.decreaseFuturesRC (s : PromiseResultSupplier) : PromiseResultSupplier :=
  { s with servedFuturesReferenceCounter_ :=
      (s.servedFuturesReferenceCounter_ + UINT16_MOD - 1) % UINT16_MOD }

/-- Embeds `PromiseResultSupplier::increasePromisesRC`. -/
def PromiseResultSupplier.increasePromisesRC (s : PromiseResultSupplier) : PromiseResultSupplier :=
  { s with servedPromisesReferenceCounter_ :=
      (s.servedPromisesReferenceCounter_ + 1) % UINT16_MOD }

/-- Embeds `PromiseResultSupplier::decreasePromisesRC`. -/
def PromiseResultSupplier.decreasePromisesRC (s : PromiseResultSupplier) : PromiseResultSupplier :=
  { s with servedPromisesReferenceCounter_ :=
      (s.servedPromisesReferenceCounter_ + UINT16_MOD - 1) % UINT16_MOD }

/-- Embeds `PromiseResultSupplier::isValid`. -/
def PromiseResultSupplier.isValid (s : PromiseResultSupplier) : Bool :=
  s.state_ == .EmptyResult && decide (0 < s.servedFuturesReferenceCounter_)

/-- Embeds `PromiseResultSupplier::isAwaitingExecutor`: `executorIndex_` is below the maximum
`std::uint16_t` value. -/
def PromiseResultSupplier.isAwaitingExecutor (s : PromiseResultSupplier) : Bool :=
  decide (s.executorIndex_ < UINT16_MOD - 1)

/-- The union `result_` of `PromiseResultSupplierTemplate<T>` (lines 126-131): the member that
holds an object (the active member) and that object. An `std::exception_ptr` is `none` when
null, else the exception object it refers to. A member that is not the active one holds no
object: reading it is undefined, and so is assigning to it with an assignment operator that is
not trivial. -/
inductive ResultUnion (T E : Type) where
  | emptyByte
  | exceptionPtr (e : Option E)
  | value (v : T)
  deriving DecidableEq, Repr

/-- Embeds the statement `result_.exceptionPtr = e;` (line 143): a call of the copy assignment
operator of `std::exception_ptr` on the member `exceptionPtr`. The operator is not trivial, so
the statement is undefined unless `exceptionPtr` is the active member of the union. -/
def ResultUnion.assignExceptionPtr {ε T E : Type} (u : ResultUnion T E) (e : Option E) :
    Outcome ε (ResultUnion T E) :=
  match u with
  | .exceptionPtr _ => .returned (.exceptionPtr e)
  | .emptyByte => .undefined
  | .value _ => .undefined

/-- Embeds the statement `result_.value = std::move(result);` (line 328). When `value` is the
active member its object is assigned. When it is not, the assignment begins the lifetime of
`value` only if `T` is a scalar type, or a class type with a trivial default constructor and a
trivial assignment operator (an `int`, a plain struct); `trivialT` tells whether `T` is such a
type. For every other `T` (an `std::string`, an owning pointer) the assignment operator is
called on storage that holds no object, which is undefined. -/
def ResultUnion.assignValue {ε T E : Type} (trivialT : Bool) (u : ResultUnion T E) (result : T) :
    Outcome ε (ResultUnion T E) :=
  match u with
  | .value _ => .returned (.value result)
  | .emptyByte => if trivialT then .returned (.value result) else .undefined
  | .exceptionPtr _ => if trivialT then .returned (.value result) else .undefined

/-- Embeds `PromiseResultSupplierTemplate<T>` (lines 120-159). -/
structure PromiseResultSupplierTemplate (T E : Type) extends PromiseResultSupplier where
  result_ : ResultUnion T E
  deriving DecidableEq, Repr

/-- Embeds `PromiseResultSupplierTemplate()` (lines 133-137): the union is initialised with its
member `emptyByte`. -/
def PromiseResultSupplierTemplate.new {T E : Type} : PromiseResultSupplierTemplate T E :=
  { PromiseResultSupplier.new with result_ := .emptyByte }

/-- What the pool mutex and the condition variables of the executors are asked to do, in
program order; `write` marks the point between them at which `setResult` writes the result
and the state of the supplier (lines 328-329). -/
inductive Event where
  | lock
  | unlock
  | notify (index : Nat)
  | write
  deriving DecidableEq, Repr

/-- Embeds `Executor` (lines 254-280): its `std::uint16_t` index. The condition variable and mutex
of an executor appear as `Event.notify` entries of the pool trace. -/
structure Executor where
  index : Nat
  deriving DecidableEq, Repr

/-- Embeds `ExecutorPool` (lines 282-320): the executors, the `activeExecutor` pointer (`none` when
null), whether `mutex` is held, and the trace of events in program order. The embedding has one
thread of control: a mutex that is held is held by the thread that makes the next call. -/
structure ExecutorPool where
  executors : List Executor
  activeExecutor : Option Nat
  locked : Bool
  trace : List Event
  deriving DecidableEq, Repr

/-- Embeds `ExecutorPool::ExecutorPool(std::size_t numExecutors)` (turquoise.cpp lines 31-37): one
executor per `i < numExecutors`, with index `static_cast<std::uint16_t>(i)`. The constructor
does not initialise `activeExecutor`; the value it happens to hold is the second parameter. -/
def ExecutorPool.new (numExecutors : Nat) (activeExecutor : Option Nat) : ExecutorPool :=
  { executors := (List.range numExecutors).map (fun i => { index := i % UINT16_MOD }),
    activeExecutor := activeExecutor,
    locked := false,
    trace := [] }

/-- Embeds `ExecutorPool::lock`: `mutex.lock()`. A call of `std::mutex::lock` by the thread that
owns the mutex is undefined; in practice the call does not return. -/
def ExecutorPool.lock {ε : Type} (pool : ExecutorPool) : Outcome ε ExecutorPool :=
  if pool.locked then .undefined
  else .returned { pool with locked := true, trace := pool.trace ++ [.lock] }

/-- Embeds `ExecutorPool::unlock`: `mutex.unlock()`. A call of `std::mutex::unlock` by a thread
that does not own the mutex is undefined. -/
def ExecutorPool.unlock {ε : Type} (pool : ExecutorPool) : Outcome ε ExecutorPool :=
  if pool.locked then .returned { pool with locked := false, trace := pool.trace ++ [.unlock] }
  else .undefined

/-- Embeds `executors[index].notify()`: `Executor::notify` (turquoise.cpp lines 57-63) of the
executor at position `index`. Indexing the vector `executors` out of range is undefined. -/
def ExecutorPool.notifyAt {ε : Type} (pool : ExecutorPool) (index : Nat) :
    Outcome ε ExecutorPool :=
  if index < pool.executors.length then
    .returned { pool with trace := pool.trace ++ [.notify index] }
  else .undefined

/-- Records in the trace that `setResult` has written the result and the state. -/
def ExecutorPool.wrote (pool : ExecutorPool) : ExecutorPool :=
  { pool with trace := pool.trace ++ [.write] }

/-- Embeds `ExecutorPool::notifyExecutorAndUnlock` (turquoise.cpp lines 66-81). With no active
executor: `unlock(); executors[index].notify(); return true;`. Otherwise: `unlock();`, then
the statement `executors[index].`, which the source does not finish, and `return false;`. What
the unfinished statement does is the parameter `unfinished`, a function of the index and of the
pool as `unlock()` leaves it. -/
def ExecutorPool.notifyExecutorAndUnlock {ε : Type}
    (unfinished : Nat → ExecutorPool → Outcome ε ExecutorPool)
    (pool : ExecutorPool) (index : Nat) : Outcome ε (Bool × ExecutorPool) :=
  match pool.activeExecutor with
  | none =>
    (pool.unlock).bind (fun pool1 =>
      (pool1.notifyAt index).bind (fun pool2 => .returned (true, pool2)))
  | some _ =>
    (pool.unlock).bind (fun pool1 =>
      (unfinished index pool1).bind (fun pool2 => .returned (false, pool2)))

/-- Embeds `PromiseResultSupplierTemplate<T>::setResult` (turquoise.hpp lines 324-339): returns the
supplier and the pool as the call leaves them. -/
def PromiseResultSupplierTemplate.setResult {T E : Type} (trivialT : Bool)
    (unfinished : Nat → ExecutorPool → Outcome (Exn E) ExecutorPool)
    (s : PromiseResultSupplierTemplate T E) (result : T) (executorPool : ExecutorPool) :
    Outcome (Exn E) (PromiseResultSupplierTemplate T E × ExecutorPool) :=
  (executorPool.lock).bind (fun pool1 =>
    (s.result_.assignValue trivialT result).bind (fun u =>
      let s1 : PromiseResultSupplierTemplate T E :=
        { s with result_ := u, state_ := .ValueResult }
      if s1.isAwaitingExecutor then
        (pool1.wrote.notifyExecutorAndUnlock unfinished s1.executorIndex_).bind (fun r =>
          .returned (s1, r.2))
      else
        (pool1.wrote.unlock).bind (fun pool2 => .returned (s1, pool2))))

/-- Embeds `PromiseResultSupplierTemplate<T>::setException` (lines 141-145). -/
def PromiseResultSupplierTemplate.setException {T E : Type}
    (s : PromiseResultSupplierTemplate T E) (e : Option E) :
    Outcome (Exn E) (PromiseResultSupplierTemplate T E) :=
  (s.result_.assignExceptionPtr e).bind (fun u =>
    .returned { s with result_ := u, state_ := .ErrorResult })

/-- The objects a `Promise<T>` and the `Future<T>` handles derived from it refer to: the pool
(`executorPool_`) and the heap-allocated supplier (`promiseResultSupplier`). -/
structure Shared (T E : Type) where
  executorPool_ : ExecutorPool
  promiseResultSupplier : PromiseResultSupplierTemplate T E
  deriving DecidableEq, Repr

/-- Embeds `Promise<T>::Promise(ExecutorPool&)` (lines 203-207). -/
def Promise.new {T E : Type} (executorPool : ExecutorPool) : Shared T E :=
  { executorPool_ := executorPool, promiseResultSupplier := PromiseResultSupplierTemplate.new }

/-- Modelled from the spec: `increaseReferenceCounter()`, which the `Future` constructor calls
on the supplier (line 192), is not declared in the source. Spec 3: the consumer-side counter
counts the "Futures referencing it, incremented each time a Future handle is derived"; the
call increments `servedFuturesReferenceCounter_`. -/
def PromiseResultSupplier.increaseReferenceCounter (s : PromiseResultSupplier) :
    PromiseResultSupplier :=
  s.increaseFuturesRC

/-- Embeds `Promise<T>::getFuture` (lines 214-217) with the `Future` constructor (lines
189-193): the new handle refers to the same supplier, whose reference counter is increased. -/
def Promise.getFuture {T E : Type} (p : Shared T E) : Shared T E :=
  { p with promiseResultSupplier :=
      { p.promiseResultSupplier with
        toPromiseResultSupplier :=
          p.promiseResultSupplier.toPromiseResultSupplier.increaseReferenceCounter } }

/-- Embeds `Promise<T>::setResult` (lines 219-227, both overloads). The source passes only the
result to the supplier; the pool argument of `setResult` of the supplier is the
`executorPool_` of the promise. -/
def Promise.setResult {T E : Type} (trivialT : Bool)
    (unfinished : Nat → ExecutorPool → Outcome (Exn E) ExecutorPool)
    (p : Shared T E) (result : T) : Outcome (Exn E) (Shared T E) :=
  (p.promiseResultSupplier.setResult trivialT unfinished result p.executorPool_).bind (fun r =>
    .returned { executorPool_ := r.2, promiseResultSupplier := r.1 })

/-- Embeds `Promise<T>::setExceptionPointer` (lines 229-232): the call goes to the supplier; the
pool is not touched. -/
def Promise.setExceptionPointer {T E : Type} (p : Shared T E) (e : Option E) :
    Outcome (Exn E) (Shared T E) :=
  (p.promiseResultSupplier.setException e).bind (fun s1 =>
    .returned { p with promiseResultSupplier := s1 })

/-- Embeds `Promise<T>::setException` (lines 234-238): `std::make_exception_ptr` yields a non-null
pointer to a copy of the exception. -/
def Promise.setException {T E : Type} (p : Shared T E) (exception : E) :
    Outcome (Exn E) (Shared T E) :=
  Promise.setExceptionPointer p (some exception)

/-- Embeds `Future<T>::get` (lines 178-186). The supplier declares `exceptionPtr` and `value` only
as members of the union `result_`, and `get` reads them without consulting `state_`. Line 180
reads `exceptionPtr`, which is undefined unless it is the active member; a pointer that is not
null is rethrown (line 182). With a null pointer line 185 reads `value`, which is then not the
active member: undefined. -/
def Future.get {T E : Type} (f : Shared T E) : Outcome (Exn E) (T × Shared T E) :=
  match f.promiseResultSupplier.result_ with
  | .exceptionPtr (some e) => .raised (.user e)
  | .exceptionPtr none => .undefined
  | .emptyByte => .undefined
  | .value _ => .undefined

/-- Embeds `ExecutorPool::ExecutorPool()` (turquoise.cpp lines 27-29): delegates to the sized
constructor with `std::thread::hardware_concurrency()`, here the first parameter. -/
def ExecutorPool.newDefault (hardwareConcurrency : Nat) (activeExecutor : Option Nat) :
    ExecutorPool :=
  ExecutorPool.new hardwareConcurrency activeExecutor

/-- The executors that a stretch of the pool trace notifies, in order. -/
def notified : List Event → List Nat
  | [] => []
  | .notify i :: rest => i :: notified rest
  | _ :: rest => notified rest

/-- One change of a reference counter of the supplier (lines 91-94). -/
inductive RefOp where
  | increaseFuturesRC
  | decreaseFuturesRC
  | increasePromisesRC
  | decreasePromisesRC
  deriving DecidableEq, Repr

/-- Applies one reference-counter call to the supplier. -/
def PromiseResultSupplier.applyRefOp (s : PromiseResultSupplier) : RefOp → PromiseResultSupplier
  | .increaseFuturesRC => s.increaseFuturesRC
  | .decreaseFuturesRC => s.decreaseFuturesRC
  | .increasePromisesRC => s.increasePromisesRC
  | .decreasePromisesRC => s.decreasePromisesRC

/-- Applies a sequence of reference-counter calls in program order. -/
def PromiseResultSupplier.applyRefOps (s : PromiseResultSupplier) :
    List RefOp → PromiseResultSupplier
  | [] => s
  | op :: ops => (s.applyRefOp op).applyRefOps ops

/-- Specification model of the references: the number of `Future` references and of `Promise`
references that are outstanding, as unbounded numbers; `none` when a call releases a reference
that was not acquired. -/
def outstanding : List RefOp → Nat × Nat → Option (Nat × Nat)
  | [], c => some c
  | .increaseFuturesRC :: ops, (f, p) => outstanding ops (f + 1, p)
  | .decreaseFuturesRC :: ops, (f, p) => if f = 0 then none else outstanding ops (f - 1, p)
  | .increasePromisesRC :: ops, (f, p) => outstanding ops (f, p + 1)
  | .decreasePromisesRC :: ops, (f, p) => if p = 0 then none else outstanding ops (f, p - 1)

/-- Stands for the unfinished statement of `notifyExecutorAndUnlock` in runs that never reach
it, because no awaiting executor is registered or no executor is active: a run that did reach
it would be undefined. -/
def ExecutorPool.notReached {ε : Type} : Nat → ExecutorPool → Outcome ε ExecutorPool :=
  fun _ _ => .undefined

/-- The active member of the union is the one that the state names: `emptyByte` in the
`EmptyResult` state and `value` in the `ValueResult` state. -/
def PromiseResultSupplierTemplate.Constructed {T E : Type}
    (s : PromiseResultSupplierTemplate T E) : Prop :=
  (s.state_ = .EmptyResult ∧ s.result_ = .emptyByte) ∨
    (s.state_ = .ValueResult ∧ ∃ v, s.result_ = .value v)

end turquoise

/-! ## Lemmas on lists and bins -/

namespace turquoise
namespace details

theorem List.take_succ_set_aux {α : Type} (l : List α) (n : Nat) (x : α) (h : n < l.length) :
    (l.set n x).take (n + 1) = l.take n ++ [x] := by
  induction l generalizing n with
  | nil => simp at h
  | cons a t ih =>
    cases n with
    | zero => simp
    | succ m =>
      simp only [List.length_cons, Nat.add_lt_add_iff_right] at h
      simp [ih m h]

theorem List.drop_take_cons_aux {α : Type} (l : List α) (n m : Nat) (x : α)
    (h : l[n]? = some x) (hnm : n < m) :
    (l.take m).drop n = x :: (l.take m).drop (n + 1) := by
  induction l generalizing n m with
  | nil => simp at h
  | cons a t ih =>
    cases m with
    | zero => omega
    | succ k =>
      cases n with
      | zero => simp at h; simp [h]
      | succ j =>
        simp only [List.getElem?_cons_succ] at h
        simpa using ih j k h (by omega)

theorem Bin.WF_new {T : Type} (C : Nat) : (Bin.new C : Bin T).WF C := by
  constructor <;> simp [Bin.new]

theorem Bin.unread_new {T : Type} (C : Nat) : (Bin.new C : Bin T).unread = [] := by
  simp [Bin.new, Bin.unread]

theorem Bin.push_returns {T : Type} (ε : Type) {C : Nat} {b : Bin T} (v : T) (hb : b.WF C)
    (hlt : b.size < C) (hM : b.size + 1 < UINT_MOD) :
    ∃ b1, (Bin.push b v : Outcome ε (Bin T)) = .returned b1 ∧ b1.WF C ∧
      b1.size = b.size + 1 ∧ b1.readIndex = b.readIndex ∧ b1.unread = b.unread ++ [v] := by
  have hmod : (b.size + 1) % UINT_MOD = b.size + 1 := Nat.mod_eq_of_lt hM
  have hlen : b.size < b.data.length := by rw [hb.len]; exact hlt
  refine ⟨{ b with data := b.data.set b.size (some v), size := b.size + 1 },
    ?_, ?_, rfl, rfl, ?_⟩
  · simp [Bin.push, hlen, hmod]
  · constructor
    · simpa using hb.len
    · have := hb.read_le
      show b.readIndex ≤ b.size + 1
      omega
    · show b.size + 1 ≤ C
      omega
    · intro i hi
      show ∃ w, (b.data.set b.size (some v))[i]? = some (some w)
      by_cases hi2 : i = b.size
      · subst hi2
        exact ⟨v, by simp [List.getElem?_set, hlen]⟩
      · have hi3 : i < b.size := by
          have : i < b.size + 1 := hi
          omega
        obtain ⟨w, hw⟩ := hb.written i hi3
        exact ⟨w, by simp [List.getElem?_set, Ne.symm hi2, hw]⟩
  · show (((b.data.set b.size (some v)).take (b.size + 1)).drop b.readIndex).filterMap id
      = ((b.data.take b.size).drop b.readIndex).filterMap id ++ [v]
    rw [List.take_succ_set_aux _ _ _ hlen, List.drop_append_of_le_length]
    · simp
    · simp only [List.length_take]
      have := hb.read_le
      omega

theorem Bin.pop_returns {T : Type} (ε : Type) {C : Nat} {b : Bin T} (hb : b.WF C)
    (hlt : b.readIndex < b.size) (hM : b.size < UINT_MOD) :
    ∃ v b1, (Bin.pop b : Outcome ε (T × Bin T)) = .returned (v, b1) ∧ b1.WF C ∧
      b1.size = b.size ∧ b1.readIndex = b.readIndex + 1 ∧ b.unread = v :: b1.unread := by
  obtain ⟨v, hv⟩ := hb.written b.readIndex hlt
  have hsz := hb.size_le
  have hmod : (b.readIndex + 1) % UINT_MOD = b.readIndex + 1 := Nat.mod_eq_of_lt (by omega)
  refine ⟨v, { b with readIndex := b.readIndex + 1 }, ?_, ?_, rfl, rfl, ?_⟩
  · simp [Bin.pop, hv, hmod]
  · exact ⟨hb.len, Nat.succ_le_of_lt hlt, hb.size_le, hb.written⟩
  · show ((b.data.take b.size).drop b.readIndex).filterMap id
      = v :: ((b.data.take b.size).drop (b.readIndex + 1)).filterMap id
    rw [List.drop_take_cons_aux _ _ _ _ hv hlt]
    simp

theorem Bin.unread_of_exhausted {T : Type} {b : Bin T} (h : b.size ≤ b.readIndex) :
    b.unread = [] := by
  unfold Bin.unread
  rw [List.drop_eq_nil_of_le]
  · rfl
  · simp only [List.length_take]
    omega

/-! ## The chain invariant is kept by `push` and `pop` -/

theorem Nodes.deref_append_last {T : Type} (pre : Nodes T) (w : Nat) (b : Bin T)
    (h : w ∉ pre.map Prod.fst) : Nodes.deref w (pre ++ [(w, b)]) = some b := by
  induction pre with
  | nil => simp [Nodes.deref]
  | cons x t ih =>
    obtain ⟨i, c⟩ := x
    simp only [List.map_cons, List.mem_cons, not_or] at h
    simp [Nodes.deref, Ne.symm h.1, ih h.2]

theorem Nodes.assign_append_last {T : Type} (pre : Nodes T) (w : Nat) (b b1 : Bin T)
    (h : w ∉ pre.map Prod.fst) :
    Nodes.assign w b1 (pre ++ [(w, b)]) = pre ++ [(w, b1)] := by
  induction pre with
  | nil => simp [Nodes.assign]
  | cons x t ih =>
    obtain ⟨i, c⟩ := x
    simp only [List.map_cons, List.mem_cons, not_or] at h
    simp [Nodes.assign, Ne.symm h.1, ih h.2]

theorem Nodes.unread_append {T : Type} (l1 l2 : Nodes T) :
    Nodes.unread (l1 ++ l2) = Nodes.unread l1 ++ Nodes.unread l2 := by
  induction l1 with
  | nil => simp [Nodes.unread]
  | cons x t ih =>
    obtain ⟨i, c⟩ := x
    simp [Nodes.unread, ih]

theorem Nodes.not_mem_keys_of_fresh {T : Type} (l : Nodes T) (f : Nat)
    (h : ∀ p ∈ l, p.1 < f) : f ∉ l.map Prod.fst := by
  intro hf
  obtain ⟨p, hp, rfl⟩ := List.mem_map.1 hf
  exact Nat.lt_irrefl _ (h p hp)

/-- Appending a freshly allocated bin and writing the first element into it. -/
theorem Queue.Inv.emplace_write {T : Type} (ε : Type) {C : Nat} {q : Queue T} (v : T)
    (hq : q.Inv C) (hC1 : 1 ≤ C) (hfull : ∀ p ∈ q.bins_, p.2.size = C)
    {B : Nat} (hB : q.SizesLe B) :
    ∃ q2, ((q.emplaceBin C).writeThrough v : Outcome ε (Queue T)) = .returned q2 ∧
      q2.Inv C ∧ q2.unread = q.unread ++ [v] ∧ q2.size_ = q.size_ ∧
      q2.SizesLe (B + 1) := by
  have hnew : (Bin.new C : Bin T).size < C := by simp [Bin.new]; omega
  obtain ⟨b1, hpush, hwf1, hsz1, hrd1, hun1⟩ :=
    Bin.push_returns ε v (Bin.WF_new C) hnew (by simp [Bin.new, UINT_MOD])
  have hnot := Nodes.not_mem_keys_of_fresh q.bins_ q.fresh_ hq.fresh
  refine ⟨{ q with bins_ := q.bins_ ++ [(q.fresh_, b1)], fresh_ := q.fresh_ + 1,
                   writeBin_ := some q.fresh_ }, ?_, ?_, ?_, rfl, ?_⟩
  · simp [Queue.writeThrough, Queue.emplaceBin, Nodes.deref_append_last _ _ _ hnot, hpush,
      Nodes.assign_append_last _ _ _ _ hnot]
  · have hsz1' : b1.size = 1 := by simpa [Bin.new] using hsz1
    have hrd1' : b1.readIndex = 0 := by simpa [Bin.new] using hrd1
    constructor
    · simp only [List.map_append, List.map_cons, List.map_nil]
      exact List.Nodup.append hq.nodup (List.nodup_singleton _) (by simpa using hnot)
    · intro p hp
      simp only [List.mem_append, List.mem_singleton] at hp
      rcases hp with hp | rfl
      · exact Nat.lt_succ_of_lt (hq.fresh p hp)
      · exact Nat.lt_succ_self _
    · intro p hp
      simp only [List.mem_append, List.mem_singleton] at hp
      rcases hp with hp | rfl
      · exact hq.wf p hp
      · exact hwf1
    · exact Or.inr ⟨q.bins_, q.fresh_, b1, rfl, rfl, by omega, hfull⟩
    · intro p hp
      show p.2.readIndex = 0
      cases hb : q.bins_ with
      | nil => simp [hb] at hp
      | cons x t =>
        simp only [hb, List.cons_append, List.tail_cons, List.mem_append,
          List.mem_singleton] at hp
        rcases hp with hp | rfl
        · exact hq.tail p (by simp [hb, hp])
        · exact hrd1'
    · show q.readBin_ = none ∨ q.readBin_ = Nodes.begin (q.bins_ ++ [(q.fresh_, b1)])
      rcases hq.read with h | h
      · exact Or.inl h
      · cases hb : q.bins_ with
        | nil =>
          rw [hb] at h
          exact Or.inl h
        | cons x t =>
          rw [hb] at h
          exact Or.inr h
    · intro h p hp
      simp only [List.mem_append, List.mem_singleton] at hp
      rcases hp with hp | rfl
      · exact hq.unreadStart h p hp
      · exact hrd1'
  · show Nodes.unread (q.bins_ ++ [(q.fresh_, b1)]) = Nodes.unread q.bins_ ++ [v]
    rw [Nodes.unread_append]
    simp [Nodes.unread, hun1, Bin.unread_new]
  · intro p hp
    have hp1 : p ∈ q.bins_ ++ [(q.fresh_, b1)] := hp
    simp only [List.mem_append, List.mem_singleton] at hp1
    rcases hp1 with hp1 | rfl
    · exact Nat.le_succ_of_le (hB p hp1)
    · show b1.size ≤ B + 1
      rw [hsz1]
      simp [Bin.new]


/-- Writing into the current write bin when it is not full. -/
theorem Queue.Inv.write_in_place {T : Type} (ε : Type) {C : Nat} {q : Queue T} (v : T)
    (hq : q.Inv C) {pre : Nodes T} {w : Nat} {b : Bin T}
    (hbins : q.bins_ = pre ++ [(w, b)]) (hw : q.writeBin_ = some w) (hlt : b.size < C)
    (hM : b.size + 1 < UINT_MOD) {B : Nat} (hB : q.SizesLe B) :
    ∃ q2, (q.writeThrough v : Outcome ε (Queue T)) = .returned q2 ∧
      q2.Inv C ∧ q2.unread = q.unread ++ [v] ∧ q2.size_ = q.size_ ∧
      q2.SizesLe (B + 1) := by
  have hnd := hq.nodup
  rw [hbins] at hnd
  simp only [List.map_append, List.map_cons, List.map_nil] at hnd
  have hnot : w ∉ pre.map Prod.fst := by
    intro hmem
    exact (List.nodup_append.1 hnd).2.2 hmem (List.mem_singleton_self w)
  have hwfb : b.WF C := hq.wf (w, b) (by simp [hbins])
  obtain ⟨b1, hpush, hwf1, hsz1, hrd1, hun1⟩ := Bin.push_returns ε v hwfb hlt hM
  have hpreFull : ∀ p ∈ pre, p.2.size = C := by
    rcases hq.back with ⟨hnil, _⟩ | ⟨pre2, w2, b2, hb2, _, _, hfull⟩
    · simp [hbins] at hnil
    · rw [hbins] at hb2
      obtain ⟨h1, _⟩ := List.append_inj' hb2 rfl
      rw [h1]
      exact hfull
  refine ⟨{ q with bins_ := pre ++ [(w, b1)] }, ?_, ?_, ?_, rfl, ?_⟩
  · simp [Queue.writeThrough, hw, hbins, Nodes.deref_append_last _ _ _ hnot, hpush,
      Nodes.assign_append_last _ _ _ _ hnot]
  · constructor
    · simpa using hnd
    · intro p hp
      simp only [List.mem_append, List.mem_singleton] at hp
      rcases hp with hp | rfl
      · exact hq.fresh p (by simp [hbins, hp])
      · exact hq.fresh (w, b) (by simp [hbins])
    · intro p hp
      simp only [List.mem_append, List.mem_singleton] at hp
      rcases hp with hp | rfl
      · exact hq.wf p (by simp [hbins, hp])
      · exact hwf1
    · exact Or.inr ⟨pre, w, b1, rfl, hw, by omega, hpreFull⟩
    · intro p hp
      show p.2.readIndex = 0
      have htl := hq.tail
      rw [hbins] at htl
      cases hpre : pre with
      | nil => simp [hpre] at hp
      | cons x t =>
        simp only [hpre, List.cons_append, List.tail_cons, List.mem_append,
          List.mem_singleton] at hp htl
        rcases hp with hp | rfl
        · exact htl p (Or.inl hp)
        · rw [hrd1]
          exact htl (w, b) (Or.inr rfl)
    · show q.readBin_ = none ∨ q.readBin_ = Nodes.begin (pre ++ [(w, b1)])
      rcases hq.read with h | h
      · exact Or.inl h
      · refine Or.inr ?_
        rw [h, hbins]
        cases pre with
        | nil => rfl
        | cons x t => rfl
    · intro h p hp
      simp only [List.mem_append, List.mem_singleton] at hp
      rcases hp with hp | rfl
      · exact hq.unreadStart h p (by simp [hbins, hp])
      · show b1.readIndex = 0
        rw [hrd1]
        exact hq.unreadStart h (w, b) (by simp [hbins])
  · show Nodes.unread (pre ++ [(w, b1)]) = Nodes.unread q.bins_ ++ [v]
    rw [hbins, Nodes.unread_append, Nodes.unread_append]
    simp [Nodes.unread, hun1]
  · intro p hp
    have hp1 : p ∈ pre ++ [(w, b1)] := hp
    simp only [List.mem_append, List.mem_singleton] at hp1
    rcases hp1 with hp1 | rfl
    · exact Nat.le_succ_of_le (hB p (by simp [hbins, hp1]))
    · show b1.size ≤ B + 1
      rw [hsz1]
      exact Nat.succ_le_succ (hB (w, b) (by simp [hbins]))

/-- The common part of both `push` overloads: `prepareWriteBin` followed by the write through
the write cursor returns, keeps the chain invariant and appends the element to the unread
elements, leaving `size_` as it was. -/
theorem Queue.Inv.prepare_write {T : Type} (ε : Type) {C : Nat} {q : Queue T} (v : T)
    (hq : q.Inv C) (hC1 : 1 ≤ C) {B : Nat} (hB : q.SizesLe B)
    (hM : C < UINT_MOD ∨ B + 1 < UINT_MOD) :
    ∃ q1 q2, (q.prepareWriteBin C : Outcome ε (Queue T)) = .returned q1 ∧
      (q1.writeThrough v : Outcome ε (Queue T)) = .returned q2 ∧
      q2.Inv C ∧ q2.unread = q.unread ++ [v] ∧ q2.size_ = q.size_ ∧ q2.SizesLe (B + 1) := by
  rcases hq.back with ⟨hnil, hw⟩ | ⟨pre, w, b, hbins, hw, hb1, hfull⟩
  · obtain ⟨q2, h2, hinv, hun, hsz, hle⟩ :=
      Queue.Inv.emplace_write ε v hq hC1 (by simp [hnil]) hB
    exact ⟨q.emplaceBin C, q2, by simp [Queue.prepareWriteBin, hw], h2, hinv, hun, hsz, hle⟩
  · have hnd := hq.nodup
    rw [hbins] at hnd
    simp only [List.map_append, List.map_cons, List.map_nil] at hnd
    have hnot : w ∉ pre.map Prod.fst := by
      intro hmem
      exact (List.nodup_append.1 hnd).2.2 hmem (List.mem_singleton_self w)
    have hderef : q.bins_.deref w = some b := by
      rw [hbins]
      exact Nodes.deref_append_last _ _ _ hnot
    by_cases hf : b.size = C
    · obtain ⟨q2, h2, hinv, hun, hsz, hle⟩ :=
        Queue.Inv.emplace_write ε v hq hC1 (by
          intro p hp
          rw [hbins] at hp
          simp only [List.mem_append, List.mem_singleton] at hp
          rcases hp with hp | rfl
          · exact hfull p hp
          · exact hf) hB
      exact ⟨q.emplaceBin C, q2, by simp [Queue.prepareWriteBin, hw, hderef, Bin.isFull, hf],
        h2, hinv, hun, hsz, hle⟩
    · have hwfb : b.WF C := hq.wf (w, b) (by simp [hbins])
      have hlt : b.size < C := lt_of_le_of_ne hwfb.size_le hf
      have hbB : b.size ≤ B := hB (w, b) (by simp [hbins])
      have hM1 : b.size + 1 < UINT_MOD := by
        rcases hM with h | h <;> omega
      obtain ⟨q2, h2, hinv, hun, hsz, hle⟩ :=
        Queue.Inv.write_in_place ε v hq hbins hw hlt hM1 hB
      exact ⟨q, q2, by simp [Queue.prepareWriteBin, hw, hderef, Bin.isFull, hf],
        h2, hinv, hun, hsz, hle⟩

theorem Queue.Inv.of_size {T : Type} {C : Nat} {q : Queue T} (n : Nat) (hq : q.Inv C) :
    ({ q with size_ := n } : Queue T).Inv C :=
  ⟨hq.nodup, hq.fresh, hq.wf, hq.back, hq.tail, hq.read, hq.unreadStart⟩

theorem Queue.Inv.new {T : Type} (C : Nat) : (Queue.new : Queue T).Inv C := by
  constructor <;> simp [Queue.new, Nodes.begin]

theorem Queue.push_spec {T : Type} (ε : Type) {C : Nat} {q : Queue T} (v : T)
    (hq : q.Inv C) (hC1 : 1 ≤ C) {B : Nat} (hB : q.SizesLe B)
    (hM : C < UINT_MOD ∨ B + 1 < UINT_MOD) :
    ∃ q1, (q.push C v : Outcome ε (Queue T)) = .returned q1 ∧ q1.Inv C ∧
      q1.unread = q.unread ++ [v] ∧ q1.size_ = (q.size_ + 1) % SIZE_MOD ∧
      q1.SizesLe (B + 1) := by
  obtain ⟨q1, q2, h1, h2, hinv, hun, hsz, hle⟩ := Queue.Inv.prepare_write ε v hq hC1 hB hM
  refine ⟨{ q2 with size_ := (q2.size_ + 1) % SIZE_MOD }, ?_, hinv.of_size _, ?_, ?_,
    fun p hp => hle p hp⟩
  · simp [Queue.push, h1, h2]
  · show Nodes.unread q2.bins_ = _
    exact hun
  · show (q2.size_ + 1) % SIZE_MOD = _
    rw [hsz]

theorem Queue.pushConstRef_spec {T : Type} (ε : Type) {C : Nat} {q : Queue T} (v : T)
    (hq : q.Inv C) (hC1 : 1 ≤ C) {B : Nat} (hB : q.SizesLe B)
    (hM : C < UINT_MOD ∨ B + 1 < UINT_MOD) :
    ∃ q1, (q.pushConstRef C v : Outcome ε (Queue T)) = .returned q1 ∧ q1.Inv C ∧
      q1.unread = q.unread ++ [v] ∧ q1.size_ = (q.size_ + SIZE_MOD - 1) % SIZE_MOD ∧
      q1.SizesLe (B + 1) := by
  obtain ⟨q1, q2, h1, h2, hinv, hun, hsz, hle⟩ := Queue.Inv.prepare_write ε v hq hC1 hB hM
  refine ⟨{ q2 with size_ := (q2.size_ + SIZE_MOD - 1) % SIZE_MOD }, ?_, hinv.of_size _, ?_, ?_,
    fun p hp => hle p hp⟩
  · simp [Queue.pushConstRef, h1, h2]
  · show Nodes.unread q2.bins_ = _
    exact hun
  · show (q2.size_ + SIZE_MOD - 1) % SIZE_MOD = _
    rw [hsz]


/-- Every bin of a chain that satisfies the invariant holds at least one written element. -/
theorem Queue.Inv.head_size_pos {T : Type} {C : Nat} {q : Queue T} (hq : q.Inv C)
    (hC1 : 1 ≤ C) {r : Nat} {b : Bin T} {rest : Nodes T} (hbins : q.bins_ = (r, b) :: rest) :
    1 ≤ b.size := by
  rcases hq.back with ⟨hnil, _⟩ | ⟨pre, w, bw, hpre, _, hb1, hfull⟩
  · simp [hbins] at hnil
  · rw [hbins] at hpre
    cases pre with
    | nil =>
      simp only [List.nil_append, List.cons.injEq, Prod.mk.injEq] at hpre
      rw [hpre.1.2]
      exact hb1
    | cons x t =>
      simp only [List.cons_append, List.cons.injEq] at hpre
      have := hfull x (List.mem_cons_self _ _)
      rw [← hpre.1] at this
      simp only at this
      omega

/-- The bin pop through the read cursor, when the cursor is the first bin and that bin has an
unread element. -/
theorem Queue.Inv.read_head {T : Type} (ε : Type) {C : Nat} {q : Queue T}
    (hq : q.Inv C) (r : Nat) (b : Bin T) (rest : Nodes T)
    (hbins : q.bins_ = (r, b) :: rest) (hr : q.readBin_ = some r)
    (hlt : b.readIndex < b.size) (hM : b.size < UINT_MOD) :
    ∃ v q2, (q.readThrough : Outcome ε (T × Queue T)) = .returned (v, q2) ∧ q2.Inv C ∧
      q.unread = v :: q2.unread ∧ q2.size_ = q.size_ ∧ ∀ B, q.SizesLe B → q2.SizesLe B := by
  have hwfb : b.WF C := hq.wf (r, b) (by simp [hbins])
  obtain ⟨v, b1, hpop, hwf1, hsz1, hrd1, hun1⟩ := Bin.pop_returns ε hwfb hlt hM
  refine ⟨v, { q with bins_ := (r, b1) :: rest }, ?_, ?_, ?_, rfl, ?_⟩
  · simp [Queue.readThrough, hr, hbins, Nodes.deref, hpop, Nodes.assign]
  · have hnd := hq.nodup
    have hfr := hq.fresh
    have hwf := hq.wf
    have htl := hq.tail
    rw [hbins] at hnd hfr hwf htl
    constructor
    · simpa using hnd
    · intro p hp
      simp only [List.mem_cons] at hp
      rcases hp with rfl | hp
      · exact hfr (r, b) (List.mem_cons_self _ _)
      · exact hfr p (List.mem_cons_of_mem _ hp)
    · intro p hp
      simp only [List.mem_cons] at hp
      rcases hp with rfl | hp
      · exact hwf1
      · exact hwf p (List.mem_cons_of_mem _ hp)
    · rcases hq.back with ⟨hnil, _⟩ | ⟨pre, w, bw, hpre, hw, hb1, hfull⟩
      · simp [hbins] at hnil
      · rw [hbins] at hpre
        refine Or.inr ?_
        cases pre with
        | nil =>
          simp only [List.nil_append, List.cons.injEq, Prod.mk.injEq] at hpre
          obtain ⟨⟨h1, h2⟩, h3⟩ := hpre
          refine ⟨[], w, b1, ?_, hw, ?_, ?_⟩
          · show (r, b1) :: rest = [] ++ [(w, b1)]
            rw [h1, h3]
            rfl
          · rw [hsz1, h2]
            exact hb1
          · intro p hp
            simp at hp
        | cons x t =>
          simp only [List.cons_append, List.cons.injEq] at hpre
          obtain ⟨h1, h2⟩ := hpre
          refine ⟨(r, b1) :: t, w, bw, ?_, hw, hb1, ?_⟩
          · show (r, b1) :: rest = ((r, b1) :: t) ++ [(w, bw)]
            rw [h2]
            rfl
          · intro p hp
            simp only [List.mem_cons] at hp
            rcases hp with rfl | hp
            · have := hfull x (List.mem_cons_self _ _)
              rw [← h1] at this
              show b1.size = C
              rw [hsz1]
              exact this
            · exact hfull p (List.mem_cons_of_mem _ hp)
    · exact htl
    · exact Or.inr hr
    · intro h
      rw [hr] at h
      cases h
  · show Nodes.unread q.bins_ = v :: Nodes.unread ((r, b1) :: rest)
    rw [hbins]
    simp [Nodes.unread, hun1]
  · intro B hB p hp
    have hp1 : p ∈ (r, b1) :: rest := hp
    simp only [List.mem_cons] at hp1
    rcases hp1 with rfl | hp1
    · show b1.size ≤ B
      rw [hsz1]
      exact hB (r, b) (by simp [hbins])
    · exact hB p (by simp [hbins, hp1])

/-- What `pop` does on a queue that satisfies the chain invariant: with no unread element
the call is undefined; otherwise it returns the oldest unread element, removes it from the
unread elements, keeps the invariant and leaves `size_` as it was. -/
theorem Queue.pop_spec {T : Type} (ε : Type) {C : Nat} {q : Queue T}
    (hq : q.Inv C) (hC1 : 1 ≤ C) {B : Nat} (hB : q.SizesLe B)
    (hM : C < UINT_MOD ∨ B < UINT_MOD) :
    (q.unread = [] ∧ (q.pop : Outcome ε (T × Queue T)) = .undefined) ∨
    ∃ v q2, (q.pop : Outcome ε (T × Queue T)) = .returned (v, q2) ∧ q2.Inv C ∧
      q.unread = v :: q2.unread ∧ q2.size_ = q.size_ ∧ q2.SizesLe B := by
  cases hbins : q.bins_ with
  | nil =>
    left
    have hr : q.readBin_ = none := by
      rcases hq.read with h | h
      · exact h
      · rw [h, hbins]; rfl
    refine ⟨by simp [Queue.unread, hbins, Nodes.unread], ?_⟩
    simp [Queue.pop, Queue.prepareReadBin, hr, hbins, Nodes.begin, Queue.readThrough]
  | cons x rest =>
    obtain ⟨r, b⟩ := x
    have hpos := hq.head_size_pos hC1 hbins
    have hwfb : b.WF C := hq.wf (r, b) (by simp [hbins])
    have hbM : b.size < UINT_MOD := by
      have h1 := hwfb.size_le
      have h2 : b.size ≤ B := hB (r, b) (by simp [hbins])
      rcases hM with h | h <;> omega
    cases hrd : q.readBin_ with
    | none =>
      right
      have h0 : b.readIndex = 0 := hq.unreadStart hrd (r, b) (by simp [hbins])
      have hq1 : ({ q with readBin_ := q.bins_.begin } : Queue T).Inv C :=
        ⟨hq.nodup, hq.fresh, hq.wf, hq.back, hq.tail, Or.inr rfl,
          fun h => by rw [hbins] at h; cases h⟩
      obtain ⟨v, q2, h2, hinv, hun, hsz, hle⟩ :=
        Queue.Inv.read_head ε hq1 r b rest hbins
          (by show q.bins_.begin = some r; rw [hbins]; rfl) (by omega) hbM
      exact ⟨v, q2, by simp [Queue.pop, Queue.prepareReadBin, hrd, h2], hinv, hun, hsz,
        hle B hB⟩
    | some r0 =>
      have hr0 : r0 = r := by
        rcases hq.read with h | h
        · rw [hrd] at h; cases h
        · rw [hrd, hbins] at h
          simpa [Nodes.begin] using h
      subst hr0
      have hderef : q.bins_.deref r0 = some b := by simp [hbins, Nodes.deref]
      by_cases hcan : b.readIndex < b.size
      · right
        obtain ⟨v, q2, h2, hinv, hun, hsz, hle⟩ :=
          Queue.Inv.read_head ε hq r0 b rest hbins hrd hcan hbM
        exact ⟨v, q2, by simp [Queue.pop, Queue.prepareReadBin, hrd, hderef, Bin.canPop, hcan,
          h2], hinv, hun, hsz, hle B hB⟩
      · have hex : b.unread = [] := Bin.unread_of_exhausted (by omega)
        have herase : q.bins_.erase r0 = rest := by simp [hbins, Nodes.erase]
        have hprep : (q.prepareReadBin : Outcome ε (Queue T)) =
            .returned { q with bins_ := rest, readBin_ := Nodes.begin rest } := by
          simp [Queue.prepareReadBin, hrd, hderef, Bin.canPop, hcan, herase]
        cases hrest : rest with
        | nil =>
          left
          refine ⟨by simp [Queue.unread, hbins, Nodes.unread, hex, hrest], ?_⟩
          simp [Queue.pop, hprep, hrest, Nodes.begin, Queue.readThrough]
        | cons y rest2 =>
          right
          obtain ⟨r2, b2⟩ := y
          subst hrest
          have hnd := hq.nodup
          have hfr := hq.fresh
          have hwf := hq.wf
          have htl := hq.tail
          rw [hbins] at hnd hfr hwf htl
          have hq1 : ({ q with bins_ := (r2, b2) :: rest2,
                               readBin_ := Nodes.begin ((r2, b2) :: rest2) } : Queue T).Inv C := by
            constructor
            · simp only [List.map_cons, List.nodup_cons] at hnd
              simpa using hnd.2
            · intro p hp
              exact hfr p (List.mem_cons_of_mem _ hp)
            · intro p hp
              exact hwf p (List.mem_cons_of_mem _ hp)
            · rcases hq.back with ⟨hnil, _⟩ | ⟨pre, w, bw, hpre, hw, hb1, hfull⟩
              · simp [hbins] at hnil
              · rw [hbins] at hpre
                cases pre with
                | nil => simp at hpre
                | cons z t =>
                  simp only [List.cons_append, List.cons.injEq] at hpre
                  exact Or.inr ⟨t, w, bw, hpre.2, hw, hb1,
                    fun p hp => hfull p (List.mem_cons_of_mem _ hp)⟩
            · intro p hp
              simp only [List.tail_cons] at hp htl
              exact htl p (List.mem_cons_of_mem _ hp)
            · exact Or.inr rfl
            · intro h
              simp [Nodes.begin] at h
          have h20 : b2.readIndex = 0 := htl (r2, b2) (by simp)
          have hpos2 := hq1.head_size_pos hC1 rfl
          have hB1 : ({ q with bins_ := (r2, b2) :: rest2,
                               readBin_ := Nodes.begin ((r2, b2) :: rest2) } : Queue T).SizesLe B :=
            fun p hp => hB p (by rw [hbins]; exact List.mem_cons_of_mem _ hp)
          have hb2M : b2.size < UINT_MOD := by
            have h1 := (hwf (r2, b2) (by simp)).size_le
            have h2 : b2.size ≤ B := hB1 (r2, b2) (List.mem_cons_self _ _)
            simp only at h1
            rcases hM with h | h <;> omega
          obtain ⟨v, q2, h2, hinv, hun, hsz, hle⟩ :=
            Queue.Inv.read_head ε hq1 r2 b2 rest2 rfl rfl (by omega) hb2M
          refine ⟨v, q2, by simp [Queue.pop, hprep, h2], hinv, ?_, hsz, hle B hB1⟩
          show Nodes.unread q.bins_ = v :: q2.unread
          rw [hbins]
          simp only [Nodes.unread, hex, List.nil_append]
          exact hun


/-! ## Runs of calls against the list model -/

theorem fifoRun_split {T : Type} (cs : List (Call T)) :
    ∀ (l outs rest : List T), fifoRun cs l = some (outs, rest) →
      outs ++ rest = l ++ cs.filterMap Call.pushed ∧ outs.length = countPops cs := by
  induction cs with
  | nil =>
    intro l outs rest h
    simp only [fifoRun, Option.some.injEq, Prod.mk.injEq] at h
    obtain ⟨rfl, rfl⟩ := h
    simp [countPops]
  | cons c cs ih =>
    intro l outs rest h
    cases c with
    | push v =>
      simp only [fifoRun] at h
      obtain ⟨h1, h2⟩ := ih _ _ _ h
      exact ⟨by simp [h1, Call.pushed], by simp [h2, countPops, Call.pushed]⟩
    | pushConstRef v =>
      simp only [fifoRun] at h
      obtain ⟨h1, h2⟩ := ih _ _ _ h
      exact ⟨by simp [h1, Call.pushed], by simp [h2, countPops, Call.pushed]⟩
    | pop =>
      cases l with
      | nil => simp [fifoRun] at h
      | cons x l =>
        simp only [fifoRun] at h
        cases hr : fifoRun cs l with
        | none => simp [hr] at h
        | some pr =>
          obtain ⟨o, r⟩ := pr
          simp only [hr, Option.some.injEq, Prod.mk.injEq] at h
          obtain ⟨rfl, rfl⟩ := h
          obtain ⟨h1, h2⟩ := ih _ _ _ hr
          exact ⟨by simp [h1, Call.pushed], by simp [h2, countPops, Call.pushed]⟩

theorem fifoRun_pushes {T : Type} (ps : List (Bool × T)) (cs : List (Call T)) :
    ∀ l : List T, fifoRun (ps.map Call.ofPush ++ cs) l = fifoRun cs (l ++ ps.map Prod.snd) := by
  induction ps with
  | nil => intro l; simp
  | cons p ps ih =>
    intro l
    obtain ⟨c, v⟩ := p
    cases c <;> simp [Call.ofPush, fifoRun, ih]

theorem fifoRun_pops {T : Type} (l : List T) :
    fifoRun (List.replicate l.length (Call.pop : Call T)) l = some (l, []) := by
  induction l with
  | nil => simp [fifoRun]
  | cons x l ih => simp [List.replicate_succ, fifoRun, ih]

/-- Refinement step lemma: from a state that satisfies the chain invariant and whose bin
counters cannot wrap during the run, every run that the list model admits is performed by the
queue with the same results. -/
theorem Queue.run_refines {T : Type} (ε : Type) {C : Nat} (hC1 : 1 ≤ C) (cs : List (Call T)) :
    ∀ (q : Queue T) (B : Nat) (outs rest : List T), q.Inv C → q.SizesLe B →
      (C < UINT_MOD ∨ B + countPushes cs < UINT_MOD) →
      fifoRun cs q.unread = some (outs, rest) →
      ∃ q1, (Queue.run C cs q : Outcome ε (List T × Queue T)) = .returned (outs, q1) ∧
        q1.Inv C ∧ q1.unread = rest := by
  induction cs with
  | nil =>
    intro q B outs rest hq _ _ h
    simp only [fifoRun, Option.some.injEq, Prod.mk.injEq] at h
    obtain ⟨rfl, rfl⟩ := h
    exact ⟨q, by simp [Queue.run], hq, rfl⟩
  | cons c cs ih =>
    intro q B outs rest hq hB hM h
    cases c with
    | push v =>
      have hcount : countPushes (Call.push v :: cs) = countPushes cs + 1 := by
        simp [countPushes, Call.pushed]
      obtain ⟨q1, h1, hinv, hun, _, hle⟩ := Queue.push_spec ε v hq hC1 hB
        (by rcases hM with hM | hM <;> omega)
      simp only [fifoRun] at h
      rw [← hun] at h
      obtain ⟨q2, h2, hinv2, hun2⟩ := ih q1 (B + 1) outs rest hinv hle
        (by rcases hM with hM | hM <;> omega) h
      exact ⟨q2, by simp [Queue.run, h1, h2], hinv2, hun2⟩
    | pushConstRef v =>
      have hcount : countPushes (Call.pushConstRef v :: cs) = countPushes cs + 1 := by
        simp [countPushes, Call.pushed]
      obtain ⟨q1, h1, hinv, hun, _, hle⟩ := Queue.pushConstRef_spec ε v hq hC1 hB
        (by rcases hM with hM | hM <;> omega)
      simp only [fifoRun] at h
      rw [← hun] at h
      obtain ⟨q2, h2, hinv2, hun2⟩ := ih q1 (B + 1) outs rest hinv hle
        (by rcases hM with hM | hM <;> omega) h
      exact ⟨q2, by simp [Queue.run, h1, h2], hinv2, hun2⟩
    | pop =>
      have hcount : countPushes (Call.pop :: cs) = countPushes cs := by
        simp [countPushes, Call.pushed]
      rcases Queue.pop_spec ε hq hC1 hB (by rcases hM with hM | hM <;> omega) with
        ⟨hnil, _⟩ | ⟨v, q1, h1, hinv, hun, _, hle⟩
      · rw [hnil] at h
        simp [fifoRun] at h
      · rw [hun] at h
        simp only [fifoRun] at h
        cases hr : fifoRun cs q1.unread with
        | none => simp [hr] at h
        | some pr =>
          obtain ⟨o, r⟩ := pr
          simp only [hr, Option.some.injEq, Prod.mk.injEq] at h
          obtain ⟨rfl, rfl⟩ := h
          obtain ⟨q2, h2, hinv2, hun2⟩ := ih q1 B o r hinv hle
            (by rcases hM with hM | hM <;> omega) hr
          exact ⟨q2, by simp [Queue.run, h1, h2], hinv2, hun2⟩

/-- Every state reached without wrapping a bin counter (the bin capacity fits the counters,
or fewer than `2^32` elements were pushed) satisfies the chain invariant, and its unread
elements are the pushed elements not yet popped. -/
theorem Reachable.inv {T : Type} {ε : Type} {C pushes pops : Nat} {q : Queue T}
    (hC1 : 1 ≤ C) (h : Reachable ε C pushes pops q) :
    (C < UINT_MOD ∨ pushes < UINT_MOD) →
      q.Inv C ∧ q.SizesLe pushes ∧ q.unread.length + pops = pushes := by
  induction h with
  | new =>
    intro _
    exact ⟨Queue.Inv.new C, by intro p hp; simp [Queue.new] at hp,
      by simp [Queue.new, Queue.unread, Nodes.unread]⟩
  | push v _ hpush ih =>
    intro hM
    obtain ⟨hinv0, hle0, hlen0⟩ := ih (by rcases hM with hM | hM <;> omega)
    obtain ⟨q1, h1, hinv, hun, _, hle⟩ := Queue.push_spec ε v hinv0 hC1 hle0 hM
    rw [h1] at hpush
    cases hpush
    refine ⟨hinv, hle, ?_⟩
    rw [hun, List.length_append, List.length_singleton]
    omega
  | pushConstRef v _ hpush ih =>
    intro hM
    obtain ⟨hinv0, hle0, hlen0⟩ := ih (by rcases hM with hM | hM <;> omega)
    obtain ⟨q1, h1, hinv, hun, _, hle⟩ := Queue.pushConstRef_spec ε v hinv0 hC1 hle0 hM
    rw [h1] at hpush
    cases hpush
    refine ⟨hinv, hle, ?_⟩
    rw [hun, List.length_append, List.length_singleton]
    omega
  | pop v _ hpop ih =>
    intro hM
    obtain ⟨hinv0, hle0, hlen0⟩ := ih hM
    rcases Queue.pop_spec ε hinv0 hC1 hle0 hM with
      ⟨_, hund⟩ | ⟨w, q1, h1, hinv, hun, _, hle⟩
    · rw [hund] at hpop
      cases hpop
    · rw [h1] at hpop
      cases hpop
      refine ⟨hinv, hle, ?_⟩
      rw [hun, List.length_cons] at hlen0
      omega

/-! ## Bin capacities that do not fit the bin counters -/

theorem Queue.Single.prepare_write_single {T : Type} (ε : Type) {C P K : Nat} {q : Queue T} (v : T)
    (hC : UINT_MOD ≤ C) (hq : q.Single C P K) :
    ∃ q1 q2, (q.prepareWriteBin C : Outcome ε (Queue T)) = .returned q1 ∧
      (q1.writeThrough v : Outcome ε (Queue T)) = .returned q2 ∧
      ∀ n, ({ q2 with size_ := n } : Queue T).Single C (P + 1) K := by
  have hM : 0 < UINT_MOD := by unfold UINT_MOD; omega
  rcases hq with ⟨hb, hr, hw, hP, hK⟩ | ⟨w, b, hb, hw, hsz, hrd, hlen, hr0, hr1, hP⟩
  · subst hP
    subst hK
    have h1 : (1 : Nat) % UINT_MOD = 1 := Nat.mod_eq_of_lt (by unfold UINT_MOD; omega)
    have hlt : 0 < C := by omega
    refine ⟨q.emplaceBin C,
      { bins_ := [(q.fresh_, { size := (0 + 1) % UINT_MOD, readIndex := 0,
                               data := (List.replicate C none).set 0 (some v) })],
        fresh_ := q.fresh_ + 1, size_ := q.size_, readBin_ := q.readBin_,
        writeBin_ := some q.fresh_ },
      by simp [Queue.prepareWriteBin, hw], ?_, ?_⟩
    · simp [Queue.writeThrough, Queue.emplaceBin, hb, Nodes.deref, Bin.push, Bin.new, hlt,
        Nodes.assign]
    · intro n
      refine Or.inr ⟨q.fresh_, _, rfl, rfl, rfl, ?_, ?_, fun _ => hr, ?_, by omega⟩
      · simp
      · simp
      · intro h
        omega
  · have hlt : b.size < C := by
      have := Nat.mod_lt P hM
      omega
    have hne : b.size ≠ C := by omega
    have hlt2 : b.size < b.data.length := by omega
    refine ⟨q,
      { q with bins_ := [(w, { b with data := b.data.set b.size (some v),
                                      size := (b.size + 1) % UINT_MOD })] },
      by simp [Queue.prepareWriteBin, hw, hb, Nodes.deref, Bin.isFull, hne], ?_, ?_⟩
    · simp [Queue.writeThrough, hw, hb, Nodes.deref, Bin.push, hlt2, Nodes.assign]
    · intro n
      refine Or.inr ⟨w, _, rfl, hw, ?_, hrd, ?_, hr0, hr1, by omega⟩
      · show (b.size + 1) % UINT_MOD = (P + 1) % UINT_MOD
        rw [hsz, Nat.add_mod, Nat.mod_mod, ← Nat.add_mod]
      · simpa using hlen

theorem Queue.Single.push {T : Type} (ε : Type) {C P K : Nat} {q : Queue T} (v : T)
    (hC : UINT_MOD ≤ C) (hq : q.Single C P K) :
    ∃ q1, (q.push C v : Outcome ε (Queue T)) = .returned q1 ∧ q1.Single C (P + 1) K := by
  obtain ⟨q1, q2, h1, h2, hs⟩ := Queue.Single.prepare_write_single ε v hC hq
  exact ⟨_, by simp only [Queue.push, h1, h2]; rfl, hs _⟩

theorem Queue.Single.pushConstRef {T : Type} (ε : Type) {C P K : Nat} {q : Queue T} (v : T)
    (hC : UINT_MOD ≤ C) (hq : q.Single C P K) :
    ∃ q1, (q.pushConstRef C v : Outcome ε (Queue T)) = .returned q1 ∧
      q1.Single C (P + 1) K := by
  obtain ⟨q1, q2, h1, h2, hs⟩ := Queue.Single.prepare_write_single ε v hC hq
  exact ⟨_, by simp only [Queue.pushConstRef, h1, h2]; rfl, hs _⟩


theorem Bin.pop_cases {T : Type} (ε : Type) (b : Bin T) :
    (∃ v, b.data[b.readIndex]? = some (some v) ∧ (Bin.pop b : Outcome ε (T × Bin T)) =
        .returned (v, { b with readIndex := (b.readIndex + 1) % UINT_MOD })) ∨
      (Bin.pop b : Outcome ε (T × Bin T)) = .undefined := by
  unfold Bin.pop
  cases hx : b.data[b.readIndex]? with
  | none => exact Or.inr rfl
  | some o =>
    cases o with
    | none => exact Or.inr rfl
    | some v => exact Or.inl ⟨v, rfl, rfl⟩

theorem Queue.readThrough_ne_raised {T : Type} (ε : Type) (q : Queue T) (e : ε) :
    (q.readThrough : Outcome ε (T × Queue T)) ≠ .raised e := by
  unfold Queue.readThrough
  cases hr : q.readBin_ with
  | none => simp
  | some r =>
    cases hd : q.bins_.deref r with
    | none => simp [hd]
    | some b =>
      rcases Bin.pop_cases ε b with ⟨v, _, hp⟩ | hp <;> simp [hd, hp]

theorem Queue.pop_ne_raised {T : Type} (ε : Type) (q : Queue T) (e : ε) :
    (q.pop : Outcome ε (T × Queue T)) ≠ .raised e := by
  unfold Queue.pop Queue.prepareReadBin
  cases hr : q.readBin_ with
  | none => exact Queue.readThrough_ne_raised ε _ e
  | some r =>
    cases hd : q.bins_.deref r with
    | none => simp [hd]
    | some b =>
      by_cases hcan : b.canPop = true
      · simpa [hd, hcan] using Queue.readThrough_ne_raised ε q e
      · simpa [hd, hcan] using Queue.readThrough_ne_raised ε _ e

theorem Queue.Single.pop {T : Type} (ε : Type) {C P K : Nat} {q q1 : Queue T} {v : T}
    (hq : q.Single C P K) (hpop : (q.pop : Outcome ε (T × Queue T)) = .returned (v, q1)) :
    q1.Single C P (K + 1) := by
  rcases hq with ⟨hb, hr, hw, hP, hK⟩ | ⟨w, b, hb, hw, hsz, hrd, hlen, hr0, hr1, hP⟩
  · simp [Queue.pop, Queue.prepareReadBin, hr, hb, Nodes.begin, Queue.readThrough] at hpop
  · have key : ∀ q0 : Queue T, q0.bins_ = [(w, b)] → q0.readBin_ = some w →
        q0.writeBin_ = some w →
        (q0.readThrough : Outcome ε (T × Queue T)) = .returned (v, q1) →
        q1.Single C P (K + 1) := by
      intro q0 h0 h1 h2 h3
      rcases Bin.pop_cases ε b with ⟨v1, _, hp⟩ | hp
      · simp only [Queue.readThrough, h1, h0, Nodes.deref, if_true, hp, Nodes.assign,
          Outcome.returned.injEq, Prod.mk.injEq] at h3
        obtain ⟨_, rfl⟩ := h3
        refine Or.inr ⟨w, _, rfl, h2, hsz, ?_, hlen, ?_, fun _ => rfl, hP⟩
        · show (b.readIndex + 1) % UINT_MOD = (K + 1) % UINT_MOD
          rw [hrd, Nat.add_mod, Nat.mod_mod, ← Nat.add_mod]
        · intro h
          omega
      · simp [Queue.readThrough, h1, h0, Nodes.deref, hp] at h3
    rcases Nat.eq_zero_or_pos K with hK | hK
    · have hr := hr0 hK
      simp only [Queue.pop, Queue.prepareReadBin, hr] at hpop
      exact key { q with readBin_ := q.bins_.begin } hb (by simp [hb, Nodes.begin]) hw hpop
    · have hr := hr1 hK
      by_cases hcan : b.readIndex < b.size
      · simp only [Queue.pop, Queue.prepareReadBin, hr, hb, Nodes.deref, if_true, Bin.canPop,
          hcan, decide_True, Bool.not_true, Bool.false_eq_true, if_false] at hpop
        exact key _ hb hr hw hpop
      · simp [Queue.pop, Queue.prepareReadBin, hr, hb, Nodes.deref, Bin.canPop, hcan,
          Nodes.erase, Nodes.begin, Queue.readThrough] at hpop

theorem Queue.Single.pop_exhausted {T : Type} (ε : Type) {C P K : Nat} {q : Queue T}
    (hq : q.Single C P K) (h : P = 0 ∨ (0 < K ∧ ¬ K % UINT_MOD < P % UINT_MOD)) :
    (q.pop : Outcome ε (T × Queue T)) = .undefined := by
  rcases hq with ⟨hb, hr, hw, hP, hK⟩ | ⟨w, b, hb, hw, hsz, hrd, hlen, hr0, hr1, hP⟩
  · simp [Queue.pop, Queue.prepareReadBin, hr, hb, Nodes.begin, Queue.readThrough]
  · rcases h with h | ⟨hK, hlt⟩
    · omega
    · have hcan : ¬ b.readIndex < b.size := by rw [hsz, hrd]; exact hlt
      simp [Queue.pop, Queue.prepareReadBin, hr1 hK, hb, Nodes.deref, Bin.canPop, hcan,
        Nodes.erase, Nodes.begin, Queue.readThrough]

theorem Reachable.single {T : Type} {ε : Type} {C pushes pops : Nat} {q : Queue T}
    (hC : UINT_MOD ≤ C) (h : Reachable ε C pushes pops q) : q.Single C pushes pops := by
  induction h with
  | new => exact Or.inl ⟨rfl, rfl, rfl, rfl, rfl⟩
  | push v _ hpush ih =>
    obtain ⟨q1, h1, hs⟩ := Queue.Single.push ε v hC ih
    rw [h1] at hpush
    cases hpush
    exact hs
  | pushConstRef v _ hpush ih =>
    obtain ⟨q1, h1, hs⟩ := Queue.Single.pushConstRef ε v hC ih
    rw [h1] at hpush
    cases hpush
    exact hs
  | pop v _ hpop ih => exact Queue.Single.pop ε ih hpop

/-- A run of `k` pushes of one overload from a single-bin state none of whose elements was
popped. -/
theorem Queue.Single.run_pushes {T : Type} (ε : Type) {C : Nat} (hC : UINT_MOD ≤ C)
    (byConstRef : Bool) (v : T) (cs : List (Call T)) (k : Nat) :
    ∀ (P : Nat) (q : Queue T), q.Single C P 0 →
      ∃ q1 : Queue T, q1.Single C (P + k) 0 ∧
        (Queue.run C (List.replicate k (Call.ofPush (byConstRef, v)) ++ cs) q :
          Outcome ε (List T × Queue T)) = Queue.run C cs q1 := by
  induction k with
  | zero =>
    intro P q hq
    exact ⟨q, hq, rfl⟩
  | succ k ih =>
    intro P q hq
    rw [List.replicate_succ, List.cons_append]
    cases byConstRef with
    | false =>
      obtain ⟨q1, h1, hs⟩ := Queue.Single.push ε v hC hq
      obtain ⟨q2, hs2, h2⟩ := ih (P + 1) q1 hs
      have hPk : P + (k + 1) = P + 1 + k := by omega
      refine ⟨q2, by rw [hPk]; exact hs2, ?_⟩
      rw [← h2]
      simp only [Call.ofPush, Queue.run, h1]
    | true =>
      obtain ⟨q1, h1, hs⟩ := Queue.Single.pushConstRef ε v hC hq
      obtain ⟨q2, hs2, h2⟩ := ih (P + 1) q1 hs
      have hPk : P + (k + 1) = P + 1 + k := by omega
      refine ⟨q2, by rw [hPk]; exact hs2, ?_⟩
      rw [← h2]
      simp only [Call.ofPush, Queue.run, h1]

/-- Once the `size` counter of the single bin has wrapped to zero, the second of two pops is
undefined whatever the first one did. -/
theorem Queue.Single.run_two_pops {T : Type} (ε : Type) {C P : Nat} {q : Queue T}
    (hq : q.Single C P 0) (hP : P % UINT_MOD = 0) (cs : List (Call T)) :
    (Queue.run C (Call.pop :: Call.pop :: cs) q : Outcome ε (List T × Queue T)) =
      .undefined := by
  cases hp : (q.pop : Outcome ε (T × Queue T)) with
  | returned a =>
    obtain ⟨v, q1⟩ := a
    have hs := Queue.Single.pop ε hq hp
    have h1 : (1 : Nat) % UINT_MOD = 1 := Nat.mod_eq_of_lt (by unfold UINT_MOD; omega)
    have hund := Queue.Single.pop_exhausted ε hs (Or.inr ⟨by omega, by rw [hP, h1]; omega⟩)
    simp [Queue.run, hp, hund]
  | raised e => exact absurd hp (Queue.pop_ne_raised ε q e)
  | undefined => simp [Queue.run, hp]

/-! ## Claims on the queue -/

theorem countPushes_pushes_pops {T : Type} (ps : List (Bool × T)) (n : Nat) :
    countPushes (ps.map Call.ofPush ++ List.replicate n (Call.pop : Call T)) = ps.length := by
  induction ps with
  | nil =>
    induction n with
    | zero => rfl
    | succ n ih =>
      rw [List.map_nil, List.nil_append] at ih
      simp [countPushes, List.replicate_succ, Call.pushed] at ih ⊢
  | cons p ps ih =>
    obtain ⟨c, v⟩ := p
    cases c <;> simp [countPushes, Call.ofPush, Call.pushed] at ih ⊢ <;> exact ih

/-- C1 (amended): for every bin capacity `C >= 1` and every sequence of `N` elements pushed,
each by either `push` overload, onto a freshly constructed queue, where `C < 2^32` or
`N < 2^32` (so that no `unsigned int` bin counter wraps), the `N` subsequent `pop` calls all
return, and they return the elements in push order. -/
theorem Queue.fifo_pushes_then_pops {T : Type} (ε : Type) (C : Nat) (hC1 : 1 ≤ C)
    (pushes : List (Bool × T)) (hM : C < 2 ^ 32 ∨ pushes.length < 2 ^ 32) :
    ∃ q : Queue T,
      (Queue.run C (pushes.map Call.ofPush ++ List.replicate pushes.length Call.pop)
        Queue.new : Outcome ε (List T × Queue T)) = .returned (pushes.map Prod.snd, q) := by
  have hspec : fifoRun (pushes.map Call.ofPush ++ List.replicate pushes.length Call.pop)
      (Queue.new : Queue T).unread = some (pushes.map Prod.snd, []) := by
    rw [fifoRun_pushes]
    have hlen : pushes.length = (pushes.map Prod.snd).length := by simp
    rw [hlen]
    exact fifoRun_pops _
  have hB : (Queue.new : Queue T).SizesLe 0 := by
    intro p hp
    simp [Queue.new] at hp
  have hM1 : C < UINT_MOD ∨ 0 + countPushes
      (pushes.map Call.ofPush ++ List.replicate pushes.length (Call.pop : Call T)) < UINT_MOD := by
    rw [countPushes_pushes_pops, Nat.zero_add]
    exact hM
  obtain ⟨q, hrun, _, _⟩ := Queue.run_refines ε hC1 _ _ 0 _ _ (Queue.Inv.new C) hB hM1 hspec
  exact ⟨q, hrun⟩

/-- Witness of C1: capacity 2, three pushes spanning two bins, then three pops. -/
theorem Queue.fifo_pushes_then_pops_witness :
    1 ≤ 2 ∧ (2 < 2 ^ 32 ∨ [(false, 10), (true, 20), (false, 30)].length < 2 ^ 32) ∧
    ∃ q : Queue Nat,
      (Queue.run 2 ([(false, 10), (true, 20), (false, 30)].map Call.ofPush ++
          List.replicate [(false, 10), (true, 20), (false, 30)].length Call.pop)
        Queue.new : Outcome (Exn Unit) (List Nat × Queue Nat)) =
      .returned ([(false, 10), (true, 20), (false, 30)].map Prod.snd, q) :=
  ⟨by decide, Or.inl (by decide),
    Queue.fifo_pushes_then_pops (Exn Unit) 2 (by decide)
      [(false, 10), (true, 20), (false, 30)] (Or.inl (by decide))⟩

/-- C1 as stated fails for bin capacity `2^32`: after `2^32` pushes into the single bin its
`unsigned int` `size` has wrapped to 0, and the second `pop` erases that bin and dereferences
`end()`, so the `2^32` pops do not all return. -/
theorem Queue.fifo_pushes_then_pops_fails_at_capacity_2_pow_32 :
    ¬ ∃ q : Queue Nat,
      (Queue.run 4294967296
        ((List.replicate 4294967296 (false, 0)).map Call.ofPush ++
          List.replicate (List.replicate 4294967296 (false, 0)).length Call.pop)
        Queue.new : Outcome (Exn Unit) (List Nat × Queue Nat)) =
      .returned ((List.replicate 4294967296 (false, 0)).map Prod.snd, q) := by
  have hC : UINT_MOD ≤ 4294967296 := Nat.le_refl _
  have hnew : (Queue.new : Queue Nat).Single 4294967296 0 0 := Or.inl ⟨rfl, rfl, rfl, rfl, rfl⟩
  obtain ⟨q1, hs, hrun⟩ := Queue.Single.run_pushes (Exn Unit) hC false (0 : Nat)
    (List.replicate 4294967296 Call.pop) 4294967296 0 Queue.new hnew
  have hpops : List.replicate 4294967296 (Call.pop : Call Nat) =
      Call.pop :: Call.pop :: List.replicate 4294967294 Call.pop := by
    rw [← List.replicate_succ, ← List.replicate_succ]
  rw [List.map_replicate, List.length_replicate, hrun, hpops,
    Queue.Single.run_two_pops (Exn Unit) hs (by rfl)]
  rintro ⟨q, hq⟩
  cases hq


/-- C2 (amended): for every bin capacity `C >= 1` and every sequence of `push` and `pop`
calls on a fresh queue, where `C < 2^32` or the sequence has fewer than `2^32` pushes (so that
no `unsigned int` bin counter wraps), the queue refines the plain list FIFO: whenever each
`pop` is issued while an unread element exists (the list model `fifoRun` admits the
sequence), the queue performs every call, the pops return what the list model returns, the
unread elements of the final queue are the final list, and the `k`-th pop returned the `k`-th
pushed element. -/
theorem Queue.refines_list_fifo {T : Type} (ε : Type) (C : Nat) (hC1 : 1 ≤ C)
    (cs : List (Call T)) (hM : C < 2 ^ 32 ∨ countPushes cs < 2 ^ 32) (outs rest : List T)
    (h : fifoRun cs [] = some (outs, rest)) :
    ∃ q : Queue T,
      (Queue.run C cs Queue.new : Outcome ε (List T × Queue T)) = .returned (outs, q) ∧
      q.unread = rest ∧
      outs = (cs.filterMap Call.pushed).take (countPops cs) := by
  have hB : (Queue.new : Queue T).SizesLe 0 := by
    intro p hp
    simp [Queue.new] at hp
  have hM1 : C < UINT_MOD ∨ 0 + countPushes cs < UINT_MOD := by
    rw [Nat.zero_add]
    exact hM
  obtain ⟨q, hrun, _, hun⟩ := Queue.run_refines ε hC1 cs Queue.new 0 outs rest
    (Queue.Inv.new C) hB hM1 h
  obtain ⟨happ, hlen⟩ := fifoRun_split cs [] outs rest h
  refine ⟨q, hrun, hun, ?_⟩
  rw [List.nil_append] at happ
  rw [← happ, ← hlen, List.take_left]

/-- Witness of C2: capacity 2, pushes and pops interleaved across a bin boundary. -/
theorem Queue.refines_list_fifo_witness :
    1 ≤ 2 ∧
    (2 < 2 ^ 32 ∨
      countPushes [Call.push 1, .pushConstRef 2, .pop, .push 3, .pop, .pop, .push 4] < 2 ^ 32) ∧
    fifoRun [Call.push 1, .pushConstRef 2, .pop, .push 3, .pop, .pop, .push 4] [] =
      some ([1, 2, 3], [4]) ∧
    ∃ q : Queue Nat,
      (Queue.run 2 [Call.push 1, .pushConstRef 2, .pop, .push 3, .pop, .pop, .push 4]
        Queue.new : Outcome (Exn Unit) (List Nat × Queue Nat)) = .returned ([1, 2, 3], q) ∧
      q.unread = [4] ∧
      [1, 2, 3] = ([Call.push 1, .pushConstRef 2, .pop, .push 3, .pop, .pop,
        .push 4].filterMap Call.pushed).take
          (countPops [Call.push 1, .pushConstRef 2, .pop, .push 3, .pop, .pop, .push 4]) :=
  ⟨by decide, Or.inl (by decide), by decide,
    Queue.refines_list_fifo (Exn Unit) 2 (by decide)
      [Call.push 1, .pushConstRef 2, .pop, .push 3, .pop, .pop, .push 4] (Or.inl (by decide))
      [1, 2, 3] [4] (by decide)⟩

/-- C2 as stated fails for bin capacity `2^32`: after `2^32` pushes by const reference the
list model still holds `2^32` unread elements, so two pops are admitted and return the first
two pushed elements, but on the queue the second `pop` is undefined. -/
theorem Queue.refines_list_fifo_fails_at_capacity_2_pow_32 :
    fifoRun (List.replicate 4294967296 (Call.ofPush (true, 0)) ++ [Call.pop, Call.pop]) [] =
      some ([0, 0], List.replicate 4294967294 0) ∧
    (Queue.run 4294967296
      (List.replicate 4294967296 (Call.ofPush (true, 0)) ++ [Call.pop, Call.pop])
      Queue.new : Outcome (Exn Unit) (List Nat × Queue Nat)) = .undefined := by
  constructor
  · have h := fifoRun_pushes (List.replicate 4294967296 (true, (0 : Nat)))
      [Call.pop, Call.pop] []
    rw [List.map_replicate, List.map_replicate, List.nil_append] at h
    rw [h]
    have hl : List.replicate 4294967296 (0 : Nat) = 0 :: 0 :: List.replicate 4294967294 0 := by
      rw [← List.replicate_succ, ← List.replicate_succ]
    rw [hl]
    rfl
  · have hC : UINT_MOD ≤ 4294967296 := Nat.le_refl _
    have hnew : (Queue.new : Queue Nat).Single 4294967296 0 0 :=
      Or.inl ⟨rfl, rfl, rfl, rfl, rfl⟩
    obtain ⟨q1, hs, hrun⟩ := Queue.Single.run_pushes (Exn Unit) hC true (0 : Nat)
      [Call.pop, Call.pop] 4294967296 0 Queue.new hnew
    rw [hrun]
    exact Queue.Single.run_two_pops (Exn Unit) hs (by rfl) []

set_option maxRecDepth 8192 in
/-- C3 (code at the failing input): with the default bin capacity 128, after one `push` by
rvalue reference and one `pop` (which returns the pushed 7) the queue holds no unread element
and pushes minus pops is 0, yet `getSize()` is 1 and `isEmpty()` is false, because `pop` does
not decrement `size_`. -/
theorem Queue.getSize_after_push_pop :
    ((Queue.run 128 [Call.push 7, .pop] Queue.new :
        Outcome (Exn Unit) (List Nat × Queue Nat)).result?).map
      (fun r => (r.1, r.2.unread, r.2.getSize, r.2.isEmpty)) = some ([7], [], 1, false) ∧
    countPushes [Call.push 7, .pop] - countPops [Call.push 7, .pop] = 0 := by
  decide

set_option maxRecDepth 8192 in
/-- C4 (code at the failing input): on a fresh queue with the default bin capacity 128,
`push` by rvalue reference takes `getSize()` from 0 to 1, while `push` by const reference
takes it from 0 to `2^64 - 1`: that overload decrements `size_`. -/
theorem Queue.getSize_after_pushConstRef :
    (Queue.new : Queue Nat).getSize = 0 ∧
    ((Queue.push 128 Queue.new 7 : Outcome (Exn Unit) (Queue Nat)).result?).map Queue.getSize
      = some 1 ∧
    ((Queue.pushConstRef 128 Queue.new 7 : Outcome (Exn Unit) (Queue Nat)).result?).map
      Queue.getSize = some 18446744073709551615 := by
  decide

/-- C5 as stated fails: `pop` on a freshly constructed queue reports no underflow condition;
it dereferences `bins_.begin()`, which is `end()`, and the call is undefined. -/
theorem Queue.pop_new_reports_no_underflow :
    ((Queue.new : Queue Nat).pop : Outcome (Exn Unit) (Nat × Queue Nat)) = .undefined ∧
    ¬ ∃ e,
      ((Queue.new : Queue Nat).pop : Outcome (Exn Unit) (Nat × Queue Nat)) = .raised e := by
  constructor
  · rfl
  · rintro ⟨e, he⟩
    cases he

/-- C5 (amended): for every bin capacity `C >= 1`, on every queue reached from a fresh queue
by as many returned pops as pushes (in particular a fresh queue), `pop` makes no emptiness
check and reports nothing: the call is undefined (it dereferences `end()`), so no element and
no underflow condition is delivered. -/
theorem Queue.pop_without_unread_is_undefined {T : Type} (ε : Type) (C n : Nat) (q : Queue T)
    (hC1 : 1 ≤ C) (h : Reachable ε C n n q) :
    (q.pop : Outcome ε (T × Queue T)) = .undefined := by
  by_cases hC : C < UINT_MOD
  · obtain ⟨hinv, hle, hlen⟩ := Reachable.inv hC1 h (Or.inl hC)
    rcases Queue.pop_spec ε hinv hC1 hle (Or.inl hC) with ⟨_, hund⟩ | ⟨v, q1, _, _, hun, _⟩
    · exact hund
    · rw [hun, List.length_cons] at hlen
      omega
  · have hs := Reachable.single (Nat.le_of_not_lt hC) h
    refine Queue.Single.pop_exhausted ε hs ?_
    rcases Nat.eq_zero_or_pos n with h0 | hpos
    · exact Or.inl h0
    · exact Or.inr ⟨hpos, Nat.lt_irrefl _⟩

/-- Witness of C5: capacity 2, one push and one returned pop, then `pop` is undefined. -/
theorem Queue.pop_without_unread_is_undefined_witness :
    1 ≤ 2 ∧
    Reachable (Exn Unit) 2 1 1
      ({ bins_ := [(0, { size := 1, readIndex := 1, data := [some 7, none] })], fresh_ := 1,
         size_ := 1, readBin_ := some 0, writeBin_ := some 0 } : Queue Nat) ∧
    (({ bins_ := [(0, { size := 1, readIndex := 1, data := [some 7, none] })], fresh_ := 1,
        size_ := 1, readBin_ := some 0, writeBin_ := some 0 } : Queue Nat).pop :
      Outcome (Exn Unit) (Nat × Queue Nat)) = .undefined :=
  ⟨by decide,
    Reachable.pop 7 (Reachable.push 7 Reachable.new rfl) rfl,
    Queue.pop_without_unread_is_undefined (Exn Unit) 2 1 _ (by decide)
      (Reachable.pop 7 (Reachable.push 7 Reachable.new rfl) rfl)⟩

set_option maxRecDepth 8192 in
/-- C6 (code at the failing input): with the default bin capacity 128, after one `push` by
rvalue reference and one returned `pop`, `isEmpty()` is false although no unread element is
left, and the `pop` that this guard lets through is undefined. -/
theorem Queue.isEmpty_false_but_pop_undefined :
    ((Queue.run 128 [Call.push 7, .pop] Queue.new :
        Outcome (Exn Unit) (List Nat × Queue Nat)).result?).map
      (fun r => (r.1, r.2.isEmpty, r.2.unread)) = some ([7], false, []) ∧
    ((Queue.run 128 [Call.push 7, .pop] Queue.new :
        Outcome (Exn Unit) (List Nat × Queue Nat)).bind
      (fun r => (r.2.pop : Outcome (Exn Unit) (Nat × Queue Nat)))) = .undefined := by
  decide

/-! ## Reachable states: bin invariant, allocation and the write cursor -/

theorem Queue.run_reachable {T : Type} (ε : Type) {C : Nat} (cs : List (Call T)) :
    ∀ (P K : Nat) (q q1 : Queue T) (outs : List T), Reachable ε C P K q →
      (Queue.run C cs q : Outcome ε (List T × Queue T)) = .returned (outs, q1) →
      Reachable ε C (P + countPushes cs) (K + countPops cs) q1 := by
  induction cs with
  | nil =>
    intro P K q q1 outs hq h
    simp only [Queue.run, Outcome.returned.injEq, Prod.mk.injEq] at h
    obtain ⟨_, rfl⟩ := h
    exact hq
  | cons c cs ih =>
    intro P K q q1 outs hq h
    cases c with
    | push v =>
      simp only [Queue.run] at h
      cases hp : (q.push C v : Outcome ε (Queue T)) with
      | returned q2 =>
        rw [hp] at h
        have := ih (P + 1) K q2 q1 outs (Reachable.push v hq hp) h
        have e1 : countPushes (Call.push v :: cs) = countPushes cs + 1 := by
          simp [countPushes, Call.pushed]
        have e2 : countPops (Call.push v :: cs) = countPops cs := by
          simp [countPops, Call.pushed]
        rw [e1, e2]
        have e3 : P + (countPushes cs + 1) = P + 1 + countPushes cs := by omega
        rw [e3]
        exact this
      | raised e => rw [hp] at h; cases h
      | undefined => rw [hp] at h; cases h
    | pushConstRef v =>
      simp only [Queue.run] at h
      cases hp : (q.pushConstRef C v : Outcome ε (Queue T)) with
      | returned q2 =>
        rw [hp] at h
        have := ih (P + 1) K q2 q1 outs (Reachable.pushConstRef v hq hp) h
        have e1 : countPushes (Call.pushConstRef v :: cs) = countPushes cs + 1 := by
          simp [countPushes, Call.pushed]
        have e2 : countPops (Call.pushConstRef v :: cs) = countPops cs := by
          simp [countPops, Call.pushed]
        rw [e1, e2]
        have e3 : P + (countPushes cs + 1) = P + 1 + countPushes cs := by omega
        rw [e3]
        exact this
      | raised e => rw [hp] at h; cases h
      | undefined => rw [hp] at h; cases h
    | pop =>
      simp only [Queue.run] at h
      cases hp : (q.pop : Outcome ε (T × Queue T)) with
      | returned r =>
        obtain ⟨v, q2⟩ := r
        rw [hp] at h
        simp only at h
        cases hr : (Queue.run C cs q2 : Outcome ε (List T × Queue T)) with
        | returned r2 =>
          obtain ⟨o2, q3⟩ := r2
          rw [hr] at h
          simp only [Outcome.returned.injEq, Prod.mk.injEq] at h
          obtain ⟨_, rfl⟩ := h
          have := ih P (K + 1) q2 q3 o2 (Reachable.pop v hq hp) hr
          have e1 : countPushes (Call.pop :: cs) = countPushes cs := by
            simp [countPushes, Call.pushed]
          have e2 : countPops (Call.pop :: cs) = countPops cs + 1 := by
            simp [countPops, Call.pushed]
          rw [e1, e2]
          have e3 : K + (countPops cs + 1) = K + 1 + countPops cs := by omega
          rw [e3]
          exact this
        | raised e => rw [hr] at h; cases h
        | undefined => rw [hr] at h; cases h
      | raised e => rw [hp] at h; cases h
      | undefined => rw [hp] at h; cases h

/-- With a bin capacity that does not fit the bin counters every push returns, so any number
of further pushes leads to a reachable state. -/
theorem Reachable.more_pushes {T : Type} (ε : Type) {C : Nat} (hC : UINT_MOD ≤ C) (v : T)
    (k : Nat) :
    ∀ (P K : Nat) (q : Queue T), Reachable ε C P K q →
      ∃ q1 : Queue T, Reachable ε C (P + k) K q1 := by
  induction k with
  | zero =>
    intro P K q hq
    exact ⟨q, hq⟩
  | succ k ih =>
    intro P K q hq
    obtain ⟨q1, h1, _⟩ := Queue.Single.push ε v hC (Reachable.single hC hq)
    obtain ⟨q2, h2⟩ := ih (P + 1) K q1 (Reachable.push v hq h1)
    have e : P + (k + 1) = P + 1 + k := by omega
    rw [e]
    exact ⟨q2, h2⟩

/-- One push followed by one pop returns for every bin capacity. -/
theorem Reachable.push_pop {T : Type} (ε : Type) (C : Nat) (hC1 : 1 ≤ C) (v : T) :
    ∃ q : Queue T, Reachable ε C 1 1 q := by
  have hB : (Queue.new : Queue T).SizesLe 0 := by
    intro p hp
    simp [Queue.new] at hp
  have h1M : (1 : Nat) < UINT_MOD := by unfold UINT_MOD; omega
  obtain ⟨q1, h1, hinv, hun, _, hle⟩ :=
    Queue.push_spec ε v (Queue.Inv.new C) hC1 hB (Or.inr h1M)
  rcases Queue.pop_spec ε hinv hC1 hle (Or.inr h1M) with ⟨hnil, _⟩ | ⟨w, q2, h2, _, _, _, _⟩
  · rw [hun] at hnil
    simp [Queue.new, Queue.unread, Nodes.unread] at hnil
  · exact ⟨q2, Reachable.pop w (Reachable.push v Reachable.new h1) h2⟩

/-- The state reached with bin capacity `2^32` by one push, one pop and `2^32 - 1` further
pushes: the single bin is both the read bin and the write bin, its `size` has wrapped to 0
and its `readIndex` is 1. -/
theorem Reachable.wrapped {T : Type} (ε : Type) (v : T) :
    ∃ (q : Queue T) (w : Nat) (b : Bin T), Reachable ε 4294967296 4294967296 1 q ∧
      q.bins_ = [(w, b)] ∧ q.writeBin_ = some w ∧ q.readBin_ = some w ∧
      b.size = 0 ∧ b.readIndex = 1 := by
  have hC : UINT_MOD ≤ 4294967296 := Nat.le_refl _
  obtain ⟨q0, h0⟩ := Reachable.push_pop ε 4294967296 (by omega) v
  obtain ⟨q, hq⟩ := Reachable.more_pushes ε hC v 4294967295 1 1 q0 h0
  have hq1 : Reachable ε 4294967296 4294967296 1 q := hq
  rcases Reachable.single hC hq1 with ⟨_, _, _, hP, _⟩ | ⟨w, b, hb, hw, hsz, hrd, _, _, hr1, _⟩
  · omega
  · exact ⟨q, w, b, hq1, hb, hw, hr1 (by omega), hsz, hrd⟩

/-- C17 as stated fails for bin capacity `2^32`: after one push, one pop and `2^32 - 1`
further pushes the single bin has `size` 0 and `readIndex` 1, so `readIndex <= size` does
not hold. -/
theorem Reachable.bin_invariant_fails_at_capacity_2_pow_32 :
    ∃ q : Queue Nat, Reachable (Exn Unit) 4294967296 4294967296 1 q ∧
      ∃ p ∈ q.bins_, p.2.size < p.2.readIndex := by
  obtain ⟨q, w, b, hq, hb, _, _, hsz, hrd⟩ := Reachable.wrapped (Exn Unit) (0 : Nat)
  refine ⟨q, hq, (w, b), by simp [hb], ?_⟩
  show b.size < b.readIndex
  omega

/-- C17 (amended): in every queue state reached from a fresh queue by pushes and returned
pops, with bin capacity `C >= 1` where `C < 2^32` or fewer than `2^32` pushes were made (so
that no `unsigned int` bin counter has wrapped), every bin of the chain satisfies
`0 <= readIndex <= size <= C`, its array has `C` slots, and every slot below `size` holds a
written object: no push has written past a capacity and every slot a pop has read was
written. -/
theorem Reachable.bin_invariant {T : Type} (ε : Type) (C P K : Nat) (q : Queue T)
    (hC1 : 1 ≤ C) (hM : C < 2 ^ 32 ∨ P < 2 ^ 32) (h : Reachable ε C P K q) :
    ∀ p ∈ q.bins_, 0 ≤ p.2.readIndex ∧ p.2.readIndex ≤ p.2.size ∧ p.2.size ≤ C ∧
      p.2.data.length = C ∧ ∀ i, i < p.2.size → ∃ v, p.2.data[i]? = some (some v) := by
  obtain ⟨hinv, _, _⟩ := Reachable.inv hC1 h hM
  intro p hp
  have hwf := hinv.wf p hp
  exact ⟨Nat.zero_le _, hwf.read_le, hwf.size_le, hwf.len, hwf.written⟩

/-- Witness of C17: capacity 2, three pushes and one pop. -/
theorem Reachable.bin_invariant_witness :
    1 ≤ 2 ∧ (2 < 2 ^ 32 ∨ 3 < 2 ^ 32) ∧
    Reachable (Exn Unit) 2 3 1
      (⟨[(0, ⟨2, 1, [some 7, some 8]⟩), (1, ⟨1, 0, [some 9, none]⟩)], 2, 3, some 0, some 1⟩ :
        Queue Nat) ∧
    ∀ p ∈ (⟨[(0, ⟨2, 1, [some 7, some 8]⟩), (1, ⟨1, 0, [some 9, none]⟩)], 2, 3, some 0,
        some 1⟩ : Queue Nat).bins_,
      0 ≤ p.2.readIndex ∧ p.2.readIndex ≤ p.2.size ∧ p.2.size ≤ 2 ∧
      p.2.data.length = 2 ∧ ∀ i, i < p.2.size → ∃ v, p.2.data[i]? = some (some v) :=
  ⟨by decide, Or.inl (by decide),
    Reachable.pop 7 (Reachable.push 9 (Reachable.push 8 (Reachable.push 7 Reachable.new rfl)
      rfl) rfl) rfl,
    Reachable.bin_invariant (Exn Unit) 2 3 1 _ (by decide) (Or.inl (by decide))
      (Reachable.pop 7 (Reachable.push 9 (Reachable.push 8 (Reachable.push 7 Reachable.new
        rfl) rfl) rfl) rfl)⟩

theorem Nodes.assign_length {T : Type} (it : Nat) (b : Bin T) (l : Nodes T) :
    (Nodes.assign it b l).length = l.length := by
  induction l with
  | nil => rfl
  | cons x t ih =>
    obtain ⟨i, c⟩ := x
    by_cases h : i = it <;> simp [Nodes.assign, h, ih]

theorem Queue.writeThrough_keeps {T : Type} (ε : Type) (q q1 : Queue T) (x : T)
    (h : (q.writeThrough x : Outcome ε (Queue T)) = .returned q1) :
    q1.bins_.length = q.bins_.length ∧ q1.readBin_ = q.readBin_ := by
  unfold Queue.writeThrough at h
  cases hw : q.writeBin_ with
  | none => simp [hw] at h
  | some w =>
    cases hd : q.bins_.deref w with
    | none => simp [hw, hd] at h
    | some b =>
      cases hp : (Bin.push b x : Outcome ε (Bin T)) with
      | returned b1 =>
        simp only [hw, hd, hp, Outcome.returned.injEq] at h
        subst h
        exact ⟨Nodes.assign_length _ _ _, rfl⟩
      | raised e => simp [hw, hd, hp] at h
      | undefined => simp [hw, hd, hp] at h

/-- What `prepareWriteBin` followed by the write does to the chain, read off the code: a bin
is appended exactly when the write cursor is `end()` or the bin it refers to is full. -/
theorem Queue.prepare_write_allocates {T : Type} (ε : Type) (C : Nat) (q q1 q2 : Queue T)
    (x : T) (h1 : (q.prepareWriteBin C : Outcome ε (Queue T)) = .returned q1)
    (h2 : (q1.writeThrough x : Outcome ε (Queue T)) = .returned q2) :
    q2.readBin_ = q.readBin_ ∧
    ((q2.bins_.length = q.bins_.length + 1 ∧
        (q.writeBin_ = none ∨
          ∃ w b, q.writeBin_ = some w ∧ q.bins_.deref w = some b ∧ b.isFull C = true)) ∨
      (q2.bins_.length = q.bins_.length ∧
        ∃ w b, q.writeBin_ = some w ∧ q.bins_.deref w = some b ∧ b.isFull C = false)) := by
  obtain ⟨hlen, hrb⟩ := Queue.writeThrough_keeps ε q1 q2 x h2
  unfold Queue.prepareWriteBin at h1
  cases hw : q.writeBin_ with
  | none =>
    simp only [hw, Outcome.returned.injEq] at h1
    subst h1
    refine ⟨hrb, Or.inl ⟨?_, Or.inl rfl⟩⟩
    rw [hlen]
    simp [Queue.emplaceBin]
  | some w =>
    cases hd : q.bins_.deref w with
    | none => simp [hw, hd] at h1
    | some b =>
      cases hf : b.isFull C with
      | true =>
        simp only [hw, hd, hf, if_true, Outcome.returned.injEq] at h1
        subst h1
        refine ⟨hrb, Or.inl ⟨?_, Or.inr ⟨w, b, rfl, hd, hf⟩⟩⟩
        rw [hlen]
        simp [Queue.emplaceBin]
      | false =>
        simp only [hw, hd, hf, Bool.false_eq_true, if_false, Outcome.returned.injEq] at h1
        subst h1
        exact ⟨hrb, Or.inr ⟨hlen, w, b, rfl, hd, hf⟩⟩

theorem Queue.push_allocates {T : Type} (ε : Type) (C : Nat) (q q1 : Queue T) (x : T)
    (h : (q.push C x : Outcome ε (Queue T)) = .returned q1) :
    q1.readBin_ = q.readBin_ ∧
    ((q1.bins_.length = q.bins_.length + 1 ∧
        (q.writeBin_ = none ∨
          ∃ w b, q.writeBin_ = some w ∧ q.bins_.deref w = some b ∧ b.isFull C = true)) ∨
      (q1.bins_.length = q.bins_.length ∧
        ∃ w b, q.writeBin_ = some w ∧ q.bins_.deref w = some b ∧ b.isFull C = false)) := by
  unfold Queue.push at h
  cases hp : (q.prepareWriteBin C : Outcome ε (Queue T)) with
  | returned qa =>
    cases hwt : (qa.writeThrough x : Outcome ε (Queue T)) with
    | returned qb =>
      simp only [hp, hwt, Outcome.returned.injEq] at h
      subst h
      exact Queue.prepare_write_allocates ε C q qa qb x hp hwt
    | raised e => simp [hp, hwt] at h
    | undefined => simp [hp, hwt] at h
  | raised e => simp [hp] at h
  | undefined => simp [hp] at h

theorem Queue.pushConstRef_allocates {T : Type} (ε : Type) (C : Nat) (q q1 : Queue T) (x : T)
    (h : (q.pushConstRef C x : Outcome ε (Queue T)) = .returned q1) :
    q1.readBin_ = q.readBin_ ∧
    ((q1.bins_.length = q.bins_.length + 1 ∧
        (q.writeBin_ = none ∨
          ∃ w b, q.writeBin_ = some w ∧ q.bins_.deref w = some b ∧ b.isFull C = true)) ∨
      (q1.bins_.length = q.bins_.length ∧
        ∃ w b, q.writeBin_ = some w ∧ q.bins_.deref w = some b ∧ b.isFull C = false)) := by
  unfold Queue.pushConstRef at h
  cases hp : (q.prepareWriteBin C : Outcome ε (Queue T)) with
  | returned qa =>
    cases hwt : (qa.writeThrough x : Outcome ε (Queue T)) with
    | returned qb =>
      simp only [hp, hwt, Outcome.returned.injEq] at h
      subst h
      exact Queue.prepare_write_allocates ε C q qa qb x hp hwt
    | raised e => simp [hp, hwt] at h
    | undefined => simp [hp, hwt] at h
  | raised e => simp [hp] at h
  | undefined => simp [hp] at h

theorem Reachable.readBin_before_pop {T : Type} {ε : Type} {C P K : Nat} {q : Queue T}
    (h : Reachable ε C P K q) : K = 0 → q.readBin_ = none := by
  induction h with
  | new => intro _; rfl
  | push v _ hpush ih =>
    intro hK
    rw [(Queue.push_allocates ε C _ _ v hpush).1]
    exact ih hK
  | pushConstRef v _ hpush ih =>
    intro hK
    rw [(Queue.pushConstRef_allocates ε C _ _ v hpush).1]
    exact ih hK
  | pop v _ _ _ =>
    intro hK
    omega

theorem List.filterMap_take_length_aux {T : Type} (l : List (Option T)) :
    ∀ n : Nat, (∀ i, i < n → ∃ v, l[i]? = some (some v)) →
      ((l.take n).filterMap id).length = n := by
  induction l with
  | nil =>
    intro n h
    cases n with
    | zero => rfl
    | succ m =>
      obtain ⟨v, hv⟩ := h 0 (Nat.succ_pos m)
      simp at hv
  | cons a t ih =>
    intro n h
    cases n with
    | zero => rfl
    | succ m =>
      obtain ⟨v, hv⟩ := h 0 (Nat.succ_pos m)
      simp only [List.getElem?_cons_zero, Option.some.injEq] at hv
      subst hv
      have hm : ∀ i, i < m → ∃ w, t[i]? = some (some w) := by
        intro i hi
        obtain ⟨w, hw⟩ := h (i + 1) (Nat.succ_lt_succ hi)
        exact ⟨w, by simpa using hw⟩
      simp [ih m hm]

theorem Bin.unread_length_unread {T : Type} {C : Nat} {b : Bin T} (hb : b.WF C)
    (h0 : b.readIndex = 0) : b.unread.length = b.size := by
  unfold Bin.unread
  rw [h0, List.drop_zero]
  exact List.filterMap_take_length_aux b.data b.size hb.written

theorem Nodes.unread_length_full {T : Type} {C : Nat} (pre : Nodes T)
    (hwf : ∀ p ∈ pre, p.2.WF C) (h0 : ∀ p ∈ pre, p.2.readIndex = 0)
    (hfull : ∀ p ∈ pre, p.2.size = C) : (Nodes.unread pre).length = pre.length * C := by
  induction pre with
  | nil => simp [Nodes.unread]
  | cons x t ih =>
    obtain ⟨i, c⟩ := x
    have hc := Bin.unread_length_unread (hwf (i, c) (List.mem_cons_self _ _))
      (h0 (i, c) (List.mem_cons_self _ _))
    have hcf : c.size = C := hfull (i, c) (List.mem_cons_self _ _)
    have ht := ih (fun p hp => hwf p (List.mem_cons_of_mem _ hp))
      (fun p hp => h0 p (List.mem_cons_of_mem _ hp))
      (fun p hp => hfull p (List.mem_cons_of_mem _ hp))
    simp only [Nodes.unread, List.length_append, List.length_cons, hc, ht, hcf]
    rw [Nat.add_mul, Nat.one_mul]
    omega

/-- The number of bins of a chain that satisfies the invariant and from which nothing was
read: the number of unread elements divided by the capacity, rounded up. -/
theorem Queue.Inv.bins_count {T : Type} {C : Nat} {q : Queue T} (hq : q.Inv C) (hC1 : 1 ≤ C)
    (hr : q.readBin_ = none) : q.bins_.length = (q.unread.length + C - 1) / C := by
  have h0 := hq.unreadStart hr
  rcases hq.back with ⟨hnil, _⟩ | ⟨pre, w, b, hbins, _, hb1, hfull⟩
  · simp only [Queue.unread, hnil, Nodes.unread, List.length_nil, Nat.zero_add]
    exact (Nat.div_eq_of_lt (by omega)).symm
  · have hwfb : b.WF C := hq.wf (w, b) (by simp [hbins])
    have hb0 : b.readIndex = 0 := h0 (w, b) (by simp [hbins])
    have hpre := Nodes.unread_length_full pre
      (fun p hp => hq.wf p (by simp [hbins, hp]))
      (fun p hp => h0 p (by simp [hbins, hp])) hfull
    have hlen : q.unread.length = pre.length * C + b.size := by
      simp only [Queue.unread, hbins, Nodes.unread_append, List.length_append, hpre,
        Nodes.unread, List.append_nil, Bin.unread_length_unread hwfb hb0]
    have hsz := hwfb.size_le
    rw [hlen, hbins, List.length_append, List.length_singleton]
    symm
    apply Nat.div_eq_of_lt_le
    · rw [Nat.add_mul, Nat.one_mul]
      omega
    · show pre.length * C + b.size + C - 1 < (pre.length + 1 + 1) * C
      rw [Nat.add_mul, Nat.add_mul, Nat.one_mul]
      omega

theorem countPops_pushes {T : Type} (ps : List (Bool × T)) :
    countPops (ps.map Call.ofPush) = 0 := by
  induction ps with
  | nil => rfl
  | cons p ps ih =>
    obtain ⟨c, v⟩ := p
    cases c <;> simp [countPops, Call.ofPush, Call.pushed] at ih ⊢ <;> exact ih

theorem countPushes_pushes {T : Type} (ps : List (Bool × T)) :
    countPushes (ps.map Call.ofPush) = ps.length := by
  induction ps with
  | nil => rfl
  | cons p ps ih =>
    obtain ⟨c, v⟩ := p
    cases c <;> simp [countPushes, Call.ofPush, Call.pushed] at ih ⊢ <;> exact ih

theorem Queue.Inv.write_cursor {T : Type} {C : Nat} {q : Queue T} (hq : q.Inv C) :
    (q.writeBin_ = none ↔ q.bins_ = []) ∧
    (q.bins_ ≠ [] → ∃ pre w b, q.bins_ = pre ++ [(w, b)] ∧ q.writeBin_ = some w ∧
      q.bins_.deref w = some b ∧ w ∉ pre.map Prod.fst ∧ ∀ p ∈ pre, p.2.size = C) := by
  rcases hq.back with ⟨hnil, hw⟩ | ⟨pre, w, b, hbins, hw, _, hfull⟩
  · exact ⟨⟨fun _ => hnil, fun _ => hw⟩, fun h => absurd hnil h⟩
  · have hnd := hq.nodup
    rw [hbins] at hnd
    simp only [List.map_append, List.map_cons, List.map_nil] at hnd
    have hnot : w ∉ pre.map Prod.fst := by
      intro hmem
      exact (List.nodup_append.1 hnd).2.2 hmem (List.mem_singleton_self w)
    refine ⟨⟨fun h => ?_, fun h => ?_⟩, fun _ => ⟨pre, w, b, hbins, hw, ?_, hnot, hfull⟩⟩
    · rw [hw] at h
      cases h
    · rw [hbins] at h
      simp at h
    · rw [hbins]
      exact Nodes.deref_append_last _ _ _ hnot

/-- C18 (amended): for every bin capacity `C >= 1` and every `N >= 0` with `C < 2^32` or
`N < 2^32` (so that no `unsigned int` bin counter wraps), `N` pushes and no pops on a fresh
queue all return and leave a chain of exactly `ceil(N / C)` bins in which every bin except
the last is full; the write cursor is `end()` exactly when no bin exists, and a further push
of either overload allocates a new bin exactly when no bin exists or the current write bin
is full, and otherwise leaves the number of bins as it is. -/
theorem Queue.bins_after_pushes {T : Type} (ε : Type) (C : Nat) (hC1 : 1 ≤ C)
    (pushes : List (Bool × T)) (hM : C < 2 ^ 32 ∨ pushes.length < 2 ^ 32) :
    ∃ q : Queue T,
      (Queue.run C (pushes.map Call.ofPush) Queue.new : Outcome ε (List T × Queue T))
        = .returned ([], q) ∧
      q.bins_.length = (pushes.length + C - 1) / C ∧
      (∀ p ∈ q.bins_.dropLast, p.2.size = C) ∧
      (q.writeBin_ = none ↔ q.bins_ = []) ∧
      ∀ c : Bool × T, (C < 2 ^ 32 ∨ pushes.length + 1 < 2 ^ 32) →
        ∃ q1 : Queue T,
          (Queue.run C [Call.ofPush c] q : Outcome ε (List T × Queue T))
            = .returned ([], q1) ∧
          (q1.bins_.length = q.bins_.length + 1 ↔
            (q.bins_ = [] ∨ ∃ w b, q.writeBin_ = some w ∧ q.bins_.deref w = some b ∧
              b.isFull C = true)) ∧
          (q1.bins_.length = q.bins_.length ∨ q1.bins_.length = q.bins_.length + 1) := by
  have hB0 : (Queue.new : Queue T).SizesLe 0 := by
    intro p hp
    simp [Queue.new] at hp
  have hspec : fifoRun (pushes.map Call.ofPush) (Queue.new : Queue T).unread
      = some ([], pushes.map Prod.snd) := by
    have h := fifoRun_pushes pushes [] ([] : List T)
    rw [List.append_nil, List.nil_append] at h
    rw [show (Queue.new : Queue T).unread = [] from rfl, h]
    rfl
  have hM1 : C < UINT_MOD ∨ 0 + countPushes (pushes.map Call.ofPush) < UINT_MOD := by
    rw [countPushes_pushes, Nat.zero_add]
    exact hM
  obtain ⟨q, hrun, _, hun⟩ := Queue.run_refines ε hC1 _ _ 0 _ _ (Queue.Inv.new C) hB0 hM1 hspec
  have hreach := Queue.run_reachable ε (pushes.map Call.ofPush) 0 0 Queue.new q []
    Reachable.new hrun
  rw [countPushes_pushes, countPops_pushes, Nat.zero_add, Nat.zero_add] at hreach
  obtain ⟨hinv, hle, _⟩ := Reachable.inv hC1 hreach hM
  have hrb := Reachable.readBin_before_pop hreach rfl
  have hcount := hinv.bins_count hC1 hrb
  rw [hun, List.length_map] at hcount
  obtain ⟨hwc, hlast⟩ := hinv.write_cursor
  refine ⟨q, hrun, hcount, ?_, hwc, ?_⟩
  · intro p hp
    by_cases hne : q.bins_ = []
    · rw [hne] at hp
      simp at hp
    · obtain ⟨pre, w, b, hbins, _, _, _, hfull⟩ := hlast hne
      rw [hbins, List.dropLast_concat] at hp
      exact hfull p hp
  · intro c hM2
    obtain ⟨byConstRef, x⟩ := c
    have key : ∀ q1 : Queue T, q1.readBin_ = q.readBin_ ∧
        ((q1.bins_.length = q.bins_.length + 1 ∧
            (q.writeBin_ = none ∨
              ∃ w b, q.writeBin_ = some w ∧ q.bins_.deref w = some b ∧ b.isFull C = true)) ∨
          (q1.bins_.length = q.bins_.length ∧
            ∃ w b, q.writeBin_ = some w ∧ q.bins_.deref w = some b ∧ b.isFull C = false)) →
        (q1.bins_.length = q.bins_.length + 1 ↔
          (q.bins_ = [] ∨ ∃ w b, q.writeBin_ = some w ∧ q.bins_.deref w = some b ∧
            b.isFull C = true)) ∧
        (q1.bins_.length = q.bins_.length ∨ q1.bins_.length = q.bins_.length + 1) := by
      intro q1 hal
      rcases hal.2 with ⟨hl, hwhy⟩ | ⟨hl, w, b, hw, hd, hf⟩
      · refine ⟨⟨fun _ => ?_, fun _ => hl⟩, Or.inr hl⟩
        rcases hwhy with hnone | hfull
        · exact Or.inl (hwc.1 hnone)
        · exact Or.inr hfull
      · refine ⟨⟨fun h => by omega, fun h => ?_⟩, Or.inl hl⟩
        rcases h with hnil | ⟨w2, b2, hw2, hd2, hf2⟩
        · rw [hwc.2 hnil] at hw
          cases hw
        · rw [hw] at hw2
          cases hw2
          rw [hd] at hd2
          cases hd2
          rw [hf] at hf2
          cases hf2
    cases byConstRef with
    | false =>
      obtain ⟨q1, h1, _⟩ := Queue.push_spec ε x hinv hC1 hle hM2
      exact ⟨q1, by simp [Call.ofPush, Queue.run, h1],
        key q1 (Queue.push_allocates ε C q q1 x h1)⟩
    | true =>
      obtain ⟨q1, h1, _⟩ := Queue.pushConstRef_spec ε x hinv hC1 hle hM2
      exact ⟨q1, by simp [Call.ofPush, Queue.run, h1],
        key q1 (Queue.pushConstRef_allocates ε C q q1 x h1)⟩

/-- Witness of C18: capacity 2 and three pushes give two bins. -/
theorem Queue.bins_after_pushes_witness :
    1 ≤ 2 ∧ (2 < 2 ^ 32 ∨ [(false, 7), (true, 8), (false, 9)].length < 2 ^ 32) ∧
    ∃ q : Queue Nat,
      (Queue.run 2 ([(false, 7), (true, 8), (false, 9)].map Call.ofPush) Queue.new :
        Outcome (Exn Unit) (List Nat × Queue Nat)) = .returned ([], q) ∧
      q.bins_.length = ([(false, 7), (true, 8), (false, 9)].length + 2 - 1) / 2 ∧
      (∀ p ∈ q.bins_.dropLast, p.2.size = 2) ∧
      (q.writeBin_ = none ↔ q.bins_ = []) ∧
      ∀ c : Bool × Nat,
        (2 < 2 ^ 32 ∨ [(false, 7), (true, 8), (false, 9)].length + 1 < 2 ^ 32) →
        ∃ q1 : Queue Nat,
          (Queue.run 2 [Call.ofPush c] q : Outcome (Exn Unit) (List Nat × Queue Nat))
            = .returned ([], q1) ∧
          (q1.bins_.length = q.bins_.length + 1 ↔
            (q.bins_ = [] ∨ ∃ w b, q.writeBin_ = some w ∧ q.bins_.deref w = some b ∧
              b.isFull 2 = true)) ∧
          (q1.bins_.length = q.bins_.length ∨ q1.bins_.length = q.bins_.length + 1) :=
  ⟨by decide, Or.inl (by decide),
    Queue.bins_after_pushes (Exn Unit) 2 (by decide) [(false, 7), (true, 8), (false, 9)]
      (Or.inl (by decide))⟩

/-- C18 as stated fails for bin capacity `2^32`: `2^32 + 1` pushes all return and leave one
bin, the first bin never comparing full, while `ceil((2^32 + 1) / 2^32)` is 2. -/
theorem Queue.bins_after_pushes_fails_at_capacity_2_pow_32 :
    (∃ q : Queue Nat,
      (Queue.run 4294967296 ((List.replicate 4294967297 (false, 0)).map Call.ofPush)
        Queue.new : Outcome (Exn Unit) (List Nat × Queue Nat)) = .returned ([], q) ∧
      q.bins_.length = 1) ∧
    ((List.replicate 4294967297 (false, 0)).length + 4294967296 - 1) / 4294967296 = 2 := by
  constructor
  · have hC : UINT_MOD ≤ 4294967296 := Nat.le_refl _
    have hnew : (Queue.new : Queue Nat).Single 4294967296 0 0 :=
      Or.inl ⟨rfl, rfl, rfl, rfl, rfl⟩
    obtain ⟨q1, hs, hrun⟩ := Queue.Single.run_pushes (Exn Unit) hC false (0 : Nat)
      [] 4294967297 0 Queue.new hnew
    rw [List.append_nil] at hrun
    refine ⟨q1, ?_, ?_⟩
    · rw [List.map_replicate, hrun]
      rfl
    · rcases hs with ⟨_, _, _, hP, _⟩ | ⟨w, b, hb, _⟩
      · omega
      · rw [hb]
        rfl
  · rw [List.length_replicate]

theorem Queue.readThrough_bins_ne_nil {T : Type} (ε : Type) (q q1 : Queue T) (v : T)
    (h : (q.readThrough : Outcome ε (T × Queue T)) = .returned (v, q1)) :
    q1.bins_ ≠ [] ∧ q1.writeBin_ = q.writeBin_ := by
  unfold Queue.readThrough at h
  cases hr : q.readBin_ with
  | none => simp [hr] at h
  | some r =>
    cases hd : q.bins_.deref r with
    | none => simp [hr, hd] at h
    | some b =>
      rcases Bin.pop_cases ε b with ⟨w, _, hp⟩ | hp
      · simp only [hr, hd, hp, Outcome.returned.injEq, Prod.mk.injEq] at h
        obtain ⟨_, rfl⟩ := h
        refine ⟨?_, rfl⟩
        intro hnil
        have hlen := Nodes.assign_length r
          { b with readIndex := (b.readIndex + 1) % UINT_MOD } q.bins_
        have hnil1 : Nodes.assign r
            { b with readIndex := (b.readIndex + 1) % UINT_MOD } q.bins_ = [] := hnil
        rw [hnil1] at hlen
        cases hq : q.bins_ with
        | nil => simp [hq, Nodes.deref] at hd
        | cons x t => simp [hq] at hlen
      · simp [hr, hd, hp] at h

theorem Queue.pop_bins_ne_nil {T : Type} (ε : Type) (q q1 : Queue T) (v : T)
    (h : (q.pop : Outcome ε (T × Queue T)) = .returned (v, q1)) : q1.bins_ ≠ [] := by
  unfold Queue.pop at h
  cases hp : (q.prepareReadBin : Outcome ε (Queue T)) with
  | returned qa =>
    simp only [hp] at h
    exact (Queue.readThrough_bins_ne_nil ε qa q1 v h).1
  | raised e => simp [hp] at h
  | undefined => simp [hp] at h

/-- The bin that `pop` erases from a chain that satisfies the invariant and still has an
unread element: a full, fully read bin that is not the bin of the write cursor. -/
theorem Queue.Inv.erased_bin {T : Type} {C : Nat} {q : Queue T} (hq : q.Inv C)
    (hun : q.unread ≠ []) (r : Nat) (b : Bin T) (he : q.erasedByPop = some (r, b)) :
    q.writeBin_ ≠ some r ∧ b.readIndex = b.size ∧ b.size = C := by
  unfold Queue.erasedByPop at he
  cases hrd : q.readBin_ with
  | none => simp [hrd] at he
  | some r0 =>
    cases hd : q.bins_.deref r0 with
    | none => simp [hrd, hd] at he
    | some b0 =>
      by_cases hcan : b0.canPop = true
      · simp [hrd, hd, hcan] at he
      · simp only [hrd, hd, hcan, Bool.not_false, Bool.not_eq_true, if_true,
          Option.some.injEq, Prod.mk.injEq] at he
        obtain ⟨rfl, rfl⟩ := he
        cases hbins : q.bins_ with
        | nil => simp [hbins, Nodes.deref] at hd
        | cons x rest =>
          obtain ⟨r1, b1⟩ := x
          have hr1 : r0 = r1 := by
            rcases hq.read with h | h
            · rw [hrd] at h; cases h
            · rw [hrd, hbins] at h
              simpa [Nodes.begin] using h
          subst hr1
          have hb : b1 = b0 := by
            simpa [hbins, Nodes.deref] using hd
          subst hb
          have hwfb : b1.WF C := hq.wf (r0, b1) (by simp [hbins])
          have hlt : ¬ b1.readIndex < b1.size := by
            simpa [Bin.canPop] using hcan
          have hrs : b1.readIndex = b1.size := by
            have := hwfb.read_le
            omega
          have hex : b1.unread = [] := Bin.unread_of_exhausted (by omega)
          have hrest : rest ≠ [] := by
            intro hnil
            apply hun
            simp [Queue.unread, hbins, hnil, Nodes.unread, hex]
          have hnd := hq.nodup
          rw [hbins] at hnd
          simp only [List.map_cons, List.nodup_cons] at hnd
          rcases hq.back with ⟨hnil, _⟩ | ⟨pre, w, bw, hpre, hw, _, hfull⟩
          · simp [hbins] at hnil
          · rw [hbins] at hpre
            cases pre with
            | nil =>
              simp only [List.nil_append, List.cons.injEq] at hpre
              exact absurd hpre.2 hrest
            | cons y t =>
              simp only [List.cons_append, List.cons.injEq] at hpre
              obtain ⟨hy, ht⟩ := hpre
              refine ⟨?_, hrs, ?_⟩
              · rw [hw]
                intro hwr
                simp only [Option.some.injEq] at hwr
                apply hnd.1
                rw [ht, ← hwr]
                simp
              · have := hfull y (List.mem_cons_self _ _)
                rw [← hy] at this
                exact this

/-- C19 as stated fails for bin capacity `2^32`: after one push, one pop and `2^32 - 1`
further pushes, a pop is issued while `2^32 - 1` pushed elements are unread, and the bin it
erases is the bin of the write cursor, with `size` 0 and `readIndex` 1: neither full nor
with `readIndex == size`. -/
theorem Reachable.pop_erases_write_bin_at_capacity_2_pow_32 :
    ∃ (q : Queue Nat) (w : Nat) (b : Bin Nat),
      Reachable (Exn Unit) 4294967296 4294967296 1 q ∧ 1 < 4294967296 ∧
      q.erasedByPop = some (w, b) ∧ q.writeBin_ = some w ∧
      b.size ≠ 4294967296 ∧ b.readIndex ≠ b.size := by
  obtain ⟨q, w, b, hq, hb, hw, hr, hsz, hrd⟩ := Reachable.wrapped (Exn Unit) (0 : Nat)
  refine ⟨q, w, b, hq, by omega, ?_, hw, by omega, by omega⟩
  simp [Queue.erasedByPop, hr, hb, Nodes.deref, Bin.canPop, hsz, hrd]

/-- C19 (amended): for every queue state reached from a fresh queue by pushes and returned
pops, with bin capacity `C >= 1` where `C < 2^32` or fewer than `2^32` pushes were made (so
that no `unsigned int` bin counter has wrapped), and in which fewer pops than pushes were
made (an unread element exists): the bin that `pop` erases, if it erases one, is not the bin
the write cursor refers to, and it is full and fully read (`readIndex == size ==
binCapacity`); `pop` returns, after it the write cursor refers to a bin that is in the
chain, and a following push of either overload returns as long as it does not wrap a bin
counter. -/
theorem Reachable.pop_keeps_write_cursor {T : Type} (ε : Type) (C P K : Nat) (q : Queue T)
    (hC1 : 1 ≤ C) (hM : C < 2 ^ 32 ∨ P < 2 ^ 32) (h : Reachable ε C P K q) (hKP : K < P) :
    (∀ r b, q.erasedByPop = some (r, b) →
      q.writeBin_ ≠ some r ∧ b.readIndex = b.size ∧ b.size = C) ∧
    ∃ (v : T) (q1 : Queue T), (q.pop : Outcome ε (T × Queue T)) = .returned (v, q1) ∧
      (∃ w b, q1.writeBin_ = some w ∧ q1.bins_.deref w = some b) ∧
      ∀ c : Bool × T, (C < 2 ^ 32 ∨ P + 1 < 2 ^ 32) →
        ∃ q2 : Queue T, (Queue.run C [Call.ofPush c] q1 : Outcome ε (List T × Queue T))
          = .returned ([], q2) := by
  obtain ⟨hinv, hle, hlen⟩ := Reachable.inv hC1 h hM
  have hun : q.unread ≠ [] := by
    intro hnil
    rw [hnil] at hlen
    simp only [List.length_nil] at hlen
    omega
  refine ⟨fun r b he => hinv.erased_bin hun r b he, ?_⟩
  rcases Queue.pop_spec ε hinv hC1 hle hM with ⟨hnil, _⟩ | ⟨v, q1, hpop, hinv1, _, _, hle1⟩
  · exact absurd hnil hun
  · have hne := Queue.pop_bins_ne_nil ε q q1 v hpop
    obtain ⟨pre, w, b, _, hw, hd, _, _⟩ := hinv1.write_cursor.2 hne
    refine ⟨v, q1, hpop, ⟨w, b, hw, hd⟩, ?_⟩
    intro c hM2
    obtain ⟨byConstRef, x⟩ := c
    cases byConstRef with
    | false =>
      obtain ⟨q2, h2, _⟩ := Queue.push_spec ε x hinv1 hC1 hle1 hM2
      exact ⟨q2, by simp [Call.ofPush, Queue.run, h2]⟩
    | true =>
      obtain ⟨q2, h2, _⟩ := Queue.pushConstRef_spec ε x hinv1 hC1 hle1 hM2
      exact ⟨q2, by simp [Call.ofPush, Queue.run, h2]⟩

/-- Witness of C19: capacity 2, three pushes and two pops; the next pop erases the first
bin, which is full and fully read, while the write cursor refers to the second bin. -/
theorem Reachable.pop_keeps_write_cursor_witness :
    1 ≤ 2 ∧ (2 < 2 ^ 32 ∨ 3 < 2 ^ 32) ∧ 2 < 3 ∧
    Reachable (Exn Unit) 2 3 2
      (⟨[(0, ⟨2, 2, [some 7, some 8]⟩), (1, ⟨1, 0, [some 9, none]⟩)], 2, 3, some 0, some 1⟩ :
        Queue Nat) ∧
    (⟨[(0, ⟨2, 2, [some 7, some 8]⟩), (1, ⟨1, 0, [some 9, none]⟩)], 2, 3, some 0, some 1⟩ :
        Queue Nat).erasedByPop = some (0, ⟨2, 2, [some 7, some 8]⟩) ∧
    ∀ r b,
      (⟨[(0, ⟨2, 2, [some 7, some 8]⟩), (1, ⟨1, 0, [some 9, none]⟩)], 2, 3, some 0, some 1⟩ :
        Queue Nat).erasedByPop = some (r, b) →
      (⟨[(0, ⟨2, 2, [some 7, some 8]⟩), (1, ⟨1, 0, [some 9, none]⟩)], 2, 3, some 0, some 1⟩ :
        Queue Nat).writeBin_ ≠ some r ∧ b.readIndex = b.size ∧ b.size = 2 :=
  ⟨by decide, Or.inl (by decide), by decide,
    Reachable.pop 8 (Reachable.pop 7 (Reachable.push 9 (Reachable.push 8
      (Reachable.push 7 Reachable.new rfl) rfl) rfl) rfl) rfl,
    by decide,
    (Reachable.pop_keeps_write_cursor (Exn Unit) 2 3 2 _ (by decide) (Or.inl (by decide))
      (Reachable.pop 8 (Reachable.pop 7 (Reachable.push 9 (Reachable.push 8
        (Reachable.push 7 Reachable.new rfl) rfl) rfl) rfl) rfl) (by decide)).1⟩

end details

/-! ## Lemmas on the result supplier -/

theorem ResultUnion.assignValue_returned (ε : Type) {T E : Type} (trivialT : Bool)
    (u : ResultUnion T E) (v : T) (hT : trivialT = true ∨ ∃ v0, u = .value v0) :
    (u.assignValue trivialT v : Outcome ε (ResultUnion T E)) = .returned (.value v) := by
  rcases hT with hT | ⟨v0, hv⟩
  · cases u <;> simp [ResultUnion.assignValue, hT]
  · simp [ResultUnion.assignValue, hv]

theorem ResultUnion.assignValue_cases (ε : Type) {T E : Type} (trivialT : Bool)
    (u : ResultUnion T E) (v : T) :
    (u.assignValue trivialT v : Outcome ε (ResultUnion T E)) = .returned (.value v) ∨
      ((u.assignValue trivialT v : Outcome ε (ResultUnion T E)) = .undefined ∧
        trivialT = false ∧ ∀ v0, u ≠ .value v0) := by
  cases u <;> cases trivialT <;> simp [ResultUnion.assignValue]

theorem PromiseResultSupplierTemplate.setResult_not_awaiting {T E : Type} (trivialT : Bool)
    (unfinished : Nat → ExecutorPool → Outcome (Exn E) ExecutorPool)
    (s : PromiseResultSupplierTemplate T E) (v : T) (pool : ExecutorPool)
    (h : s.isAwaitingExecutor = false) (hfree : pool.locked = false)
    (hT : trivialT = true ∨ ∃ v0, s.result_ = .value v0) :
    s.setResult trivialT unfinished v pool =
      .returned ({ s with result_ := .value v, state_ := .ValueResult },
        { pool with locked := false, trace := pool.trace ++ [.lock, .write, .unlock] }) := by
  have hu := ResultUnion.assignValue_returned (Exn E) trivialT s.result_ v hT
  have h1 : PromiseResultSupplier.isAwaitingExecutor
      { s.toPromiseResultSupplier with state_ := State.ValueResult } = false := h
  simp [PromiseResultSupplierTemplate.setResult, ExecutorPool.lock, hfree, Outcome.bind, hu, h1,
    ExecutorPool.wrote, ExecutorPool.unlock]

theorem PromiseResultSupplierTemplate.setResult_notifies {T E : Type} (trivialT : Bool)
    (unfinished : Nat → ExecutorPool → Outcome (Exn E) ExecutorPool)
    (s : PromiseResultSupplierTemplate T E) (v : T) (pool : ExecutorPool)
    (h : s.isAwaitingExecutor = true) (hfree : pool.locked = false)
    (hT : trivialT = true ∨ ∃ v0, s.result_ = .value v0)
    (hact : pool.activeExecutor = none) (hidx : s.executorIndex_ < pool.executors.length) :
    s.setResult trivialT unfinished v pool =
      .returned ({ s with result_ := .value v, state_ := .ValueResult },
        { pool with
          locked := false,
          trace := pool.trace ++ [.lock, .write, .unlock, .notify s.executorIndex_] }) := by
  have hu := ResultUnion.assignValue_returned (Exn E) trivialT s.result_ v hT
  have h1 : PromiseResultSupplier.isAwaitingExecutor
      { s.toPromiseResultSupplier with state_ := State.ValueResult } = true := h
  simp [PromiseResultSupplierTemplate.setResult, ExecutorPool.lock, hfree, Outcome.bind, hu, h1,
    ExecutorPool.wrote, ExecutorPool.unlock, ExecutorPool.notifyExecutorAndUnlock, hact,
    ExecutorPool.notifyAt, hidx]

theorem PromiseResultSupplierTemplate.setResult_returned {T E : Type} (trivialT : Bool)
    (unfinished : Nat → ExecutorPool → Outcome (Exn E) ExecutorPool)
    (s s1 : PromiseResultSupplierTemplate T E) (v : T) (pool pool1 : ExecutorPool)
    (h : s.setResult trivialT unfinished v pool = .returned (s1, pool1)) :
    s1 = { s with result_ := .value v, state_ := .ValueResult } ∧ pool.locked = false ∧
      (trivialT = true ∨ ∃ v0, s.result_ = .value v0) := by
  unfold PromiseResultSupplierTemplate.setResult at h
  cases hl : (pool.lock : Outcome (Exn E) ExecutorPool) with
  | raised e => rw [hl] at h; cases h
  | undefined => rw [hl] at h; cases h
  | returned poolL =>
    have hfree : pool.locked = false := by
      unfold ExecutorPool.lock at hl
      cases hb : pool.locked with
      | false => rfl
      | true => simp [hb] at hl
    rw [hl] at h
    simp only [Outcome.bind] at h
    rcases ResultUnion.assignValue_cases (Exn E) trivialT s.result_ v with hu | ⟨hu, _, _⟩
    · have hT : trivialT = true ∨ ∃ v0, s.result_ = .value v0 := by
        cases hr : s.result_ with
        | value v0 => exact Or.inr ⟨v0, rfl⟩
        | emptyByte =>
          cases ht : trivialT with
          | true => exact Or.inl rfl
          | false => simp [ResultUnion.assignValue, hr, ht] at hu
        | exceptionPtr e0 =>
          cases ht : trivialT with
          | true => exact Or.inl rfl
          | false => simp [ResultUnion.assignValue, hr, ht] at hu
      rw [hu] at h
      simp only [Outcome.bind] at h
      refine ⟨?_, hfree, hT⟩
      split at h
      · cases hn : (poolL.wrote.notifyExecutorAndUnlock unfinished
            s.executorIndex_ : Outcome (Exn E) (Bool × ExecutorPool)) with
        | returned r =>
          rw [hn] at h
          simp only [Outcome.bind, Outcome.returned.injEq, Prod.mk.injEq] at h
          exact h.1.symm
        | raised e => rw [hn] at h; cases h
        | undefined => rw [hn] at h; cases h
      · cases hn : (poolL.wrote.unlock : Outcome (Exn E) ExecutorPool) with
        | returned r =>
          rw [hn] at h
          simp only [Outcome.bind, Outcome.returned.injEq, Prod.mk.injEq] at h
          exact h.1.symm
        | raised e => rw [hn] at h; cases h
        | undefined => rw [hn] at h; cases h
    · rw [hu] at h
      cases h

theorem PromiseResultSupplierTemplate.setException_cases {T E : Type}
    (s : PromiseResultSupplierTemplate T E) (e : Option E) :
    (s.setException e = .returned { s with result_ := .exceptionPtr e, state_ := .ErrorResult } ∧
        ∃ e0, s.result_ = .exceptionPtr e0) ∨
      (s.setException e = .undefined ∧ ∀ e0, s.result_ ≠ .exceptionPtr e0) := by
  unfold PromiseResultSupplierTemplate.setException
  cases hr : s.result_ with
  | exceptionPtr e0 => exact Or.inl ⟨by simp [ResultUnion.assignExceptionPtr, Outcome.bind], e0, rfl⟩
  | emptyByte => exact Or.inr ⟨by simp [ResultUnion.assignExceptionPtr, Outcome.bind], by simp⟩
  | value v0 => exact Or.inr ⟨by simp [ResultUnion.assignExceptionPtr, Outcome.bind], by simp⟩

theorem Future.get_cases {T E : Type} (f : Shared T E) :
    Future.get f = .undefined ∨
      ∃ e, f.promiseResultSupplier.result_ = .exceptionPtr (some e) ∧
        Future.get f = .raised (.user e) := by
  unfold Future.get
  cases hr : f.promiseResultSupplier.result_ with
  | exceptionPtr e0 =>
    cases e0 with
    | none => exact Or.inl rfl
    | some e => exact Or.inr ⟨e, rfl, rfl⟩
  | emptyByte => exact Or.inl rfl
  | value v0 => exact Or.inl rfl

/-- C7 as stated fails: on a promise of `int` whose supplier is in the `ValueResult` state
after `setResult(1)`, a second `setResult(2)` returns normally with the value overwritten; it
raises no `PromiseError`. -/
theorem Promise.second_set_raises_no_PromiseError :
    Promise.setResult true ExecutorPool.notReached
        (Promise.new (ExecutorPool.new 2 none) : Shared Nat Unit) 1
      = .returned ⟨⟨[⟨0⟩, ⟨1⟩], none, false, [.lock, .write, .unlock]⟩,
          ⟨⟨.ValueResult, 0, 1, 65535⟩, .value 1⟩⟩ ∧
    Promise.setResult true ExecutorPool.notReached
        (⟨⟨[⟨0⟩, ⟨1⟩], none, false, [.lock, .write, .unlock]⟩,
          ⟨⟨.ValueResult, 0, 1, 65535⟩, .value 1⟩⟩ : Shared Nat Unit) 2
      = .returned ⟨⟨[⟨0⟩, ⟨1⟩], none, false,
            [.lock, .write, .unlock, .lock, .write, .unlock]⟩,
          ⟨⟨.ValueResult, 0, 1, 65535⟩, .value 2⟩⟩ ∧
    ¬ ∃ what, Promise.setResult true ExecutorPool.notReached
        (⟨⟨[⟨0⟩, ⟨1⟩], none, false, [.lock, .write, .unlock]⟩,
          ⟨⟨.ValueResult, 0, 1, 65535⟩, .value 1⟩⟩ : Shared Nat Unit) 2
      = .raised (Exn.PromiseError what) := by
  refine ⟨by decide, by decide, ?_⟩
  rintro ⟨what, h⟩
  have hp : Promise.setResult true ExecutorPool.notReached
      (⟨⟨[⟨0⟩, ⟨1⟩], none, false, [.lock, .write, .unlock]⟩,
        ⟨⟨.ValueResult, 0, 1, 65535⟩, .value 1⟩⟩ : Shared Nat Unit) 2
      = .returned ⟨⟨[⟨0⟩, ⟨1⟩], none, false,
          [.lock, .write, .unlock, .lock, .write, .unlock]⟩,
        ⟨⟨.ValueResult, 0, 1, 65535⟩, .value 2⟩⟩ := by decide
  exact Outcome.noConfusion (hp.symm.trans h)

/-- C7 (amended): for every promise whose supplier is in the `ValueResult` state, the union
holding the member that the state names, with the pool lock free and no awaiting executor
registered, a further `setResult(v)` raises no `PromiseError`: it returns, and leaves the
supplier in the `ValueResult` state holding `v`. On every promise, whatever the state of its
supplier, `setException` raises no exception, `setResult` raises none when no awaiting executor
is registered, and a call of either that returns has overwritten the result and the state. -/
theorem Promise.set_overwrites {T E : Type} (trivialT : Bool)
    (unfinished : Nat → ExecutorPool → Outcome (Exn E) ExecutorPool)
    (p : Shared T E) (v : T) (e : E)
    (hst : p.promiseResultSupplier.state_ = State.ValueResult)
    (hcon : p.promiseResultSupplier.Constructed)
    (hfree : p.executorPool_.locked = false)
    (hnot : p.promiseResultSupplier.isAwaitingExecutor = false) :
    (∃ p1, Promise.setResult trivialT unfinished p v = .returned p1 ∧
      p1.promiseResultSupplier.state_ = State.ValueResult ∧
      p1.promiseResultSupplier.result_ = ResultUnion.value v ∧
      p1.executorPool_.locked = false) ∧
    (∀ what, Promise.setResult trivialT unfinished p v ≠ .raised (Exn.PromiseError what)) ∧
    (∀ (q : Shared T E) (x : Exn E), Promise.setException q e ≠ .raised x) ∧
    (∀ (q : Shared T E) (x : Exn E), q.promiseResultSupplier.isAwaitingExecutor = false →
      Promise.setResult trivialT unfinished q v ≠ .raised x) ∧
    (∀ q q1 : Shared T E, Promise.setResult trivialT unfinished q v = .returned q1 →
      q1.promiseResultSupplier.state_ = State.ValueResult ∧
      q1.promiseResultSupplier.result_ = ResultUnion.value v) ∧
    (∀ q q1 : Shared T E, Promise.setException q e = .returned q1 →
      q1.promiseResultSupplier.state_ = State.ErrorResult ∧
      q1.promiseResultSupplier.result_ = ResultUnion.exceptionPtr (some e)) := by
  have hval : ∃ v0, p.promiseResultSupplier.result_ = ResultUnion.value v0 := by
    rcases hcon with ⟨h0, _⟩ | ⟨_, h1⟩
    · rw [hst] at h0
      cases h0
    · exact h1
  have hret := PromiseResultSupplierTemplate.setResult_not_awaiting trivialT unfinished
    p.promiseResultSupplier v p.executorPool_ hnot hfree (Or.inr hval)
  have hp : Promise.setResult trivialT unfinished p v = .returned
      { executorPool_ := { p.executorPool_ with
          locked := false, trace := p.executorPool_.trace ++ [.lock, .write, .unlock] },
        promiseResultSupplier :=
          { p.promiseResultSupplier with result_ := .value v, state_ := .ValueResult } } := by
    simp only [Promise.setResult, hret, Outcome.bind]
  refine ⟨⟨_, hp, rfl, rfl, rfl⟩, ?_, ?_, ?_, ?_, ?_⟩
  · intro what h
    exact Outcome.noConfusion (hp.symm.trans h)
  · intro q x h
    simp only [Promise.setException, Promise.setExceptionPointer] at h
    rcases PromiseResultSupplierTemplate.setException_cases q.promiseResultSupplier (some e)
      with ⟨hr, _⟩ | ⟨hu, _⟩
    · rw [hr] at h
      cases h
    · rw [hu] at h
      cases h
  · intro q x hq h
    simp only [Promise.setResult] at h
    cases hs : q.promiseResultSupplier.setResult trivialT unfinished v q.executorPool_ with
    | returned r => rw [hs] at h; cases h
    | undefined => rw [hs] at h; cases h
    | raised y =>
      exfalso
      unfold PromiseResultSupplierTemplate.setResult at hs
      have h1 : PromiseResultSupplier.isAwaitingExecutor
          { q.promiseResultSupplier.toPromiseResultSupplier with
            state_ := State.ValueResult } = false := hq
      cases hb : q.executorPool_.locked with
      | true => simp [ExecutorPool.lock, hb, Outcome.bind] at hs
      | false =>
        rcases ResultUnion.assignValue_cases (Exn E) trivialT q.promiseResultSupplier.result_ v
          with hu | ⟨hu, _, _⟩
        · simp [ExecutorPool.lock, hb, Outcome.bind, hu, h1, ExecutorPool.wrote,
            ExecutorPool.unlock] at hs
        · simp [ExecutorPool.lock, hb, Outcome.bind, hu] at hs
  · intro q q1 h
    simp only [Promise.setResult] at h
    cases hs : q.promiseResultSupplier.setResult trivialT unfinished v q.executorPool_ with
    | returned r =>
      obtain ⟨s1, pool1⟩ := r
      rw [hs] at h
      simp only [Outcome.bind, Outcome.returned.injEq] at h
      subst h
      obtain ⟨hs1, _, _⟩ :=
        PromiseResultSupplierTemplate.setResult_returned trivialT unfinished _ _ v _ _ hs
      subst hs1
      exact ⟨rfl, rfl⟩
    | raised y => rw [hs] at h; cases h
    | undefined => rw [hs] at h; cases h
  · intro q q1 h
    simp only [Promise.setException, Promise.setExceptionPointer] at h
    rcases PromiseResultSupplierTemplate.setException_cases q.promiseResultSupplier (some e)
      with ⟨hr, _⟩ | ⟨hu, _⟩
    · rw [hr] at h
      simp only [Outcome.bind, Outcome.returned.injEq] at h
      subst h
      exact ⟨rfl, rfl⟩
    · rw [hu] at h
      cases h

/-- Witness of C7: the promise of `int` whose supplier holds the value 1 after
`setResult(1)`. -/
theorem Promise.set_overwrites_witness :
    Promise.setResult true ExecutorPool.notReached
        (Promise.new (ExecutorPool.new 2 none) : Shared Nat Unit) 1
      = .returned ⟨⟨[⟨0⟩, ⟨1⟩], none, false, [.lock, .write, .unlock]⟩,
          ⟨⟨.ValueResult, 0, 1, 65535⟩, .value 1⟩⟩ ∧
    ∃ p1, Promise.setResult true ExecutorPool.notReached
        (⟨⟨[⟨0⟩, ⟨1⟩], none, false, [.lock, .write, .unlock]⟩,
          ⟨⟨.ValueResult, 0, 1, 65535⟩, .value 1⟩⟩ : Shared Nat Unit) 2 = .returned p1 ∧
      p1.promiseResultSupplier.state_ = State.ValueResult ∧
      p1.promiseResultSupplier.result_ = ResultUnion.value 2 ∧
      p1.executorPool_.locked = false :=
  ⟨by decide, (Promise.set_overwrites true ExecutorPool.notReached
    (⟨⟨[⟨0⟩, ⟨1⟩], none, false, [.lock, .write, .unlock]⟩,
      ⟨⟨.ValueResult, 0, 1, 65535⟩, .value 1⟩⟩ : Shared Nat Unit) 2 ()
    rfl (Or.inr ⟨rfl, 1, rfl⟩) rfl (by decide)).1⟩

/-- C8 (code at the failing input): on a fresh promise of `int` with a future obtained by
`getFuture()`, `setResult(42)` returns with the supplier in the `ValueResult` state and `value`
the active member of the union; `get()` on the future then reads `exceptionPtr`, which is not
the active member, and is undefined: it does not return 42. For every type, pool and value the
round trip `setResult(v); get()` is undefined. -/
theorem Future.get_after_setResult_is_undefined :
    Promise.setResult true ExecutorPool.notReached
        (Promise.getFuture (Promise.new (ExecutorPool.new 1 none) : Shared Nat Unit)) 42
      = .returned ⟨⟨[⟨0⟩], none, false, [.lock, .write, .unlock]⟩,
          ⟨⟨.ValueResult, 1, 1, 65535⟩, .value 42⟩⟩ ∧
    Future.get (⟨⟨[⟨0⟩], none, false, [.lock, .write, .unlock]⟩,
        ⟨⟨.ValueResult, 1, 1, 65535⟩, .value 42⟩⟩ : Shared Nat Unit) = .undefined ∧
    (∀ (T E : Type) (trivialT : Bool)
        (unfinished : Nat → ExecutorPool → Outcome (Exn E) ExecutorPool)
        (pool : ExecutorPool) (v : T),
      (Promise.setResult trivialT unfinished
          (Promise.getFuture (Promise.new pool : Shared T E)) v).bind Future.get
        = .undefined) := by
  refine ⟨by decide, by decide, ?_⟩
  intro T E trivialT unfinished pool v
  cases hs : Promise.setResult trivialT unfinished
      (Promise.getFuture (Promise.new pool : Shared T E)) v with
  | undefined => rfl
  | raised x =>
    exfalso
    simp only [Promise.setResult] at hs
    have h1 : PromiseResultSupplier.isAwaitingExecutor
        { PromiseResultSupplier.increaseReferenceCounter PromiseResultSupplier.new with
          state_ := State.ValueResult } = false := by decide
    cases hb : pool.locked with
    | true =>
      simp [PromiseResultSupplierTemplate.setResult, Promise.getFuture, Promise.new,
        ExecutorPool.lock, hb, Outcome.bind] at hs
    | false =>
      cases trivialT with
      | true =>
        simp [PromiseResultSupplierTemplate.setResult, Promise.getFuture, Promise.new,
          PromiseResultSupplierTemplate.new, ExecutorPool.lock, hb, Outcome.bind,
          ResultUnion.assignValue, h1, ExecutorPool.wrote, ExecutorPool.unlock] at hs
      | false =>
        simp [PromiseResultSupplierTemplate.setResult, Promise.getFuture, Promise.new,
          PromiseResultSupplierTemplate.new, ExecutorPool.lock, hb, Outcome.bind,
          ResultUnion.assignValue] at hs
  | returned p1 =>
    simp only [Outcome.bind]
    rcases Future.get_cases p1 with hu | ⟨e, he, _⟩
    · exact hu
    · exfalso
      simp only [Promise.setResult] at hs
      cases hr : (Promise.getFuture (Promise.new pool : Shared T E)).promiseResultSupplier.setResult
          trivialT unfinished v (Promise.getFuture (Promise.new pool : Shared T E)).executorPool_
        with
      | returned r =>
        obtain ⟨s1, pool1⟩ := r
        rw [hr] at hs
        simp only [Outcome.bind, Outcome.returned.injEq] at hs
        subst hs
        obtain ⟨hs1, _, _⟩ :=
          PromiseResultSupplierTemplate.setResult_returned trivialT unfinished _ _ v _ _ hr
        subst hs1
        cases he
      | raised y => rw [hr] at hs; cases hs
      | undefined => rw [hr] at hs; cases hs

/-- C9 (code at the failing input): on a fresh promise with a future obtained by `getFuture()`,
`setException` assigns to the member `exceptionPtr` of a union whose active member is
`emptyByte`, which is undefined: the supplier does not reach the `ErrorResult` state and the
round trip `setException(e); get()` is undefined, for every type, pool and exception. Where
`exceptionPtr` is the active member and not null, `get()` does rethrow the stored exception. -/
theorem Promise.setException_on_fresh_promise_is_undefined :
    Promise.setException
        (Promise.getFuture (Promise.new (ExecutorPool.new 1 none) : Shared Nat String)) "x"
      = .undefined ∧
    (∀ (T E : Type) (pool : ExecutorPool) (e : E),
      Promise.setException (Promise.getFuture (Promise.new pool : Shared T E)) e
        = .undefined ∧
      (Promise.setException (Promise.getFuture (Promise.new pool : Shared T E)) e).bind
          Future.get = .undefined) ∧
    (∀ (T E : Type) (pool : ExecutorPool) (base : PromiseResultSupplier) (e : E),
      Future.get (⟨pool, ⟨base, .exceptionPtr (some e)⟩⟩ : Shared T E)
        = .raised (Exn.user e)) := by
  refine ⟨rfl, ?_, ?_⟩
  · intro T E pool e
    have h : Promise.setException (Promise.getFuture (Promise.new pool : Shared T E)) e
        = .undefined := rfl
    exact ⟨h, by rw [h]; rfl⟩
  · intro T E pool base e
    rfl

/-! ## Claims on the reference counters and the pool -/

theorem PromiseResultSupplier.applyRefOps_counters (ops : List RefOp) :
    ∀ (s : PromiseResultSupplier) (f p : Nat) (c : Nat × Nat),
      s.servedFuturesReferenceCounter_ = f % UINT16_MOD →
      s.servedPromisesReferenceCounter_ = p % UINT16_MOD →
      outstanding ops (f, p) = some c →
      (s.applyRefOps ops).servedFuturesReferenceCounter_ = c.1 % UINT16_MOD ∧
      (s.applyRefOps ops).servedPromisesReferenceCounter_ = c.2 % UINT16_MOD := by
  have hM : UINT16_MOD = 65536 := rfl
  induction ops with
  | nil =>
    intro s f p c hf hp h
    simp only [outstanding, Option.some.injEq] at h
    subst h
    exact ⟨hf, hp⟩
  | cons op ops ih =>
    intro s f p c hf hp h
    simp only [PromiseResultSupplier.applyRefOps]
    cases op with
    | increaseFuturesRC =>
      simp only [outstanding] at h
      apply ih (s.applyRefOp .increaseFuturesRC) (f + 1) p c _ _ h
      · simp only [PromiseResultSupplier.applyRefOp, PromiseResultSupplier.increaseFuturesRC]
        rw [hf, hM]
        omega
      · simp only [PromiseResultSupplier.applyRefOp, PromiseResultSupplier.increaseFuturesRC]
        exact hp
    | decreaseFuturesRC =>
      simp only [outstanding] at h
      split at h
      · cases h
      · apply ih (s.applyRefOp .decreaseFuturesRC) (f - 1) p c _ _ h
        · simp only [PromiseResultSupplier.applyRefOp, PromiseResultSupplier.decreaseFuturesRC]
          rw [hf, hM]
          omega
        · simp only [PromiseResultSupplier.applyRefOp, PromiseResultSupplier.decreaseFuturesRC]
          exact hp
    | increasePromisesRC =>
      simp only [outstanding] at h
      apply ih (s.applyRefOp .increasePromisesRC) f (p + 1) c _ _ h
      · simp only [PromiseResultSupplier.applyRefOp, PromiseResultSupplier.increasePromisesRC]
        exact hf
      · simp only [PromiseResultSupplier.applyRefOp, PromiseResultSupplier.increasePromisesRC]
        rw [hp, hM]
        omega
    | decreasePromisesRC =>
      simp only [outstanding] at h
      split at h
      · cases h
      · apply ih (s.applyRefOp .decreasePromisesRC) f (p - 1) c _ _ h
        · simp only [PromiseResultSupplier.applyRefOp, PromiseResultSupplier.decreasePromisesRC]
          exact hf
        · simp only [PromiseResultSupplier.applyRefOp, PromiseResultSupplier.decreasePromisesRC]
          rw [hp, hM]
          omega

theorem outstanding_acquire_futures (k : Nat) (rest : List RefOp) :
    ∀ f p : Nat, outstanding (List.replicate k RefOp.increaseFuturesRC ++ rest) (f, p)
      = outstanding rest (f + k, p) := by
  induction k with
  | zero => intro f p; rfl
  | succ k ih =>
    intro f p
    rw [List.replicate_succ, List.cons_append]
    simp only [outstanding]
    rw [ih]
    have : f + 1 + k = f + (k + 1) := by omega
    rw [this]

/-- C11 (amended): for every sequence of reference acquisitions and releases on a supplier
created by a Promise that never releases a reference that was not acquired, each
`std::uint16_t` counter holds the number of outstanding references of its kind modulo `2^16`,
so `canDelete()` is true iff both numbers are multiples of `2^16`; with fewer than `2^16`
outstanding `Future` references and fewer than `2^16` outstanding `Promise` references,
`canDelete()` is true iff no reference of either kind is outstanding. -/
theorem PromiseResultSupplier.canDelete_iff_no_reference (ops : List RefOp) (f p : Nat)
    (h : outstanding ops (0, 1) = some (f, p)) :
    ((PromiseResultSupplier.new.applyRefOps ops).servedFuturesReferenceCounter_ = f % 2 ^ 16 ∧
      (PromiseResultSupplier.new.applyRefOps ops).servedPromisesReferenceCounter_
        = p % 2 ^ 16) ∧
    ((PromiseResultSupplier.new.applyRefOps ops).canDelete = true ↔
      f % 2 ^ 16 = 0 ∧ p % 2 ^ 16 = 0) ∧
    (f < 2 ^ 16 → p < 2 ^ 16 →
      ((PromiseResultSupplier.new.applyRefOps ops).canDelete = true ↔ f = 0 ∧ p = 0)) := by
  obtain ⟨hf, hp⟩ := PromiseResultSupplier.applyRefOps_counters ops PromiseResultSupplier.new
    0 1 (f, p) rfl rfl h
  have hM : UINT16_MOD = 2 ^ 16 := rfl
  rw [hM] at hf hp
  have key : (PromiseResultSupplier.new.applyRefOps ops).canDelete = true ↔
      f % 2 ^ 16 = 0 ∧ p % 2 ^ 16 = 0 := by
    simp only [PromiseResultSupplier.canDelete, Bool.and_eq_true, beq_iff_eq, hf, hp]
  refine ⟨⟨hf, hp⟩, key, ?_⟩
  intro hf1 hp1
  rw [key, Nat.mod_eq_of_lt hf1, Nat.mod_eq_of_lt hp1]

/-- Witness of C11: two futures derived, then every reference released. -/
theorem PromiseResultSupplier.canDelete_iff_no_reference_witness :
    outstanding [RefOp.increaseFuturesRC, .increaseFuturesRC, .decreasePromisesRC,
      .decreaseFuturesRC, .decreaseFuturesRC] (0, 1) = some (0, 0) ∧
    (((PromiseResultSupplier.new.applyRefOps [RefOp.increaseFuturesRC, .increaseFuturesRC,
        .decreasePromisesRC, .decreaseFuturesRC,
        .decreaseFuturesRC]).servedFuturesReferenceCounter_ = 0 % 2 ^ 16 ∧
      (PromiseResultSupplier.new.applyRefOps [RefOp.increaseFuturesRC, .increaseFuturesRC,
        .decreasePromisesRC, .decreaseFuturesRC,
        .decreaseFuturesRC]).servedPromisesReferenceCounter_ = 0 % 2 ^ 16) ∧
    ((PromiseResultSupplier.new.applyRefOps [RefOp.increaseFuturesRC, .increaseFuturesRC,
        .decreasePromisesRC, .decreaseFuturesRC, .decreaseFuturesRC]).canDelete = true ↔
      0 % 2 ^ 16 = 0 ∧ 0 % 2 ^ 16 = 0) ∧
    (0 < 2 ^ 16 → 0 < 2 ^ 16 →
      ((PromiseResultSupplier.new.applyRefOps [RefOp.increaseFuturesRC, .increaseFuturesRC,
        .decreasePromisesRC, .decreaseFuturesRC, .decreaseFuturesRC]).canDelete = true ↔
      0 = 0 ∧ 0 = 0))) :=
  ⟨by decide, PromiseResultSupplier.canDelete_iff_no_reference
    [RefOp.increaseFuturesRC, .increaseFuturesRC, .decreasePromisesRC, .decreaseFuturesRC,
      .decreaseFuturesRC] 0 0 (by decide)⟩

/-- C11 as stated fails without a bound on the futures derived: after `2^16` futures are
derived from a fresh supplier and the promise releases its reference, `2^16` `Future`
references are outstanding, none was released unacquired, and `canDelete()` is true because
the `std::uint16_t` futures counter has wrapped to 0. -/
theorem PromiseResultSupplier.canDelete_with_outstanding_futures :
    outstanding (List.replicate 65536 RefOp.increaseFuturesRC ++ [RefOp.decreasePromisesRC])
      (0, 1) = some (65536, 0) ∧
    (PromiseResultSupplier.new.applyRefOps
      (List.replicate 65536 RefOp.increaseFuturesRC ++ [RefOp.decreasePromisesRC])).canDelete
      = true := by
  have hout : outstanding
      (List.replicate 65536 RefOp.increaseFuturesRC ++ [RefOp.decreasePromisesRC]) (0, 1)
      = some (65536, 0) := by
    rw [outstanding_acquire_futures]
    rfl
  refine ⟨hout, ?_⟩
  obtain ⟨hf, hp⟩ := PromiseResultSupplier.applyRefOps_counters _ PromiseResultSupplier.new
    0 1 (65536, 0) rfl rfl hout
  simp only [PromiseResultSupplier.canDelete, Bool.and_eq_true, beq_iff_eq]
  exact ⟨hf, hp⟩

theorem ExecutorPool.new_executor_at (k i : Nat) (a : Option Nat) (h : i < k) :
    (ExecutorPool.new k a).executors[i]? = some { index := i % UINT16_MOD } := by
  simp [ExecutorPool.new, List.getElem?_map, List.getElem?_range, h]

/-- C14: for every `k >= 0`, the pool built by `ExecutorPool(k)` owns exactly `k` executors;
the detected hardware concurrency is no input of that constructor, it only sizes the pool of
the default constructor. -/
theorem ExecutorPool.new_owns_k_executors (k hardwareConcurrency : Nat)
    (activeExecutor : Option Nat) :
    (ExecutorPool.new k activeExecutor).executors.length = k ∧
    (ExecutorPool.newDefault hardwareConcurrency activeExecutor).executors.length
      = hardwareConcurrency := by
  simp [ExecutorPool.new, ExecutorPool.newDefault]

/-- C20 as stated fails for `k = 2^16`: the executor at position `65535` stores index
`65535`, the sentinel that a fresh supplier holds and that `isAwaitingExecutor()` reads as
"no executor waiting"; for `k = 2^16 + 1` the executor at position `65536` stores index 0,
the index of the executor at position 0. -/
theorem ExecutorPool.new_index_is_sentinel_at_65536 :
    (ExecutorPool.new 65536 none).executors[65535]? = some { index := 65535 } ∧
    PromiseResultSupplier.new.executorIndex_ = 65535 ∧
    ({ PromiseResultSupplier.new with executorIndex_ := 65535 } :
      PromiseResultSupplier).isAwaitingExecutor = false ∧
    (ExecutorPool.new 65537 none).executors[65536]? = some { index := 0 } ∧
    (ExecutorPool.new 65537 none).executors[0]? = some { index := 0 } := by
  refine ⟨?_, rfl, rfl, ?_, ?_⟩
  · exact ExecutorPool.new_executor_at 65536 65535 none (by omega)
  · exact ExecutorPool.new_executor_at 65537 65536 none (by omega)
  · exact ExecutorPool.new_executor_at 65537 0 none (by omega)

/-- C20 (amended): for every `k < 2^16`, in the pool built by `ExecutorPool(k)` the executor
at position `i` stores index `i`, all stored indices are pairwise distinct, and none equals
the sentinel `2^16 - 1`: a supplier that holds such an index is awaiting an executor. -/
theorem ExecutorPool.new_indices_usable (k : Nat) (activeExecutor : Option Nat)
    (hk : k < 2 ^ 16) :
    (∀ i, i < k → (ExecutorPool.new k activeExecutor).executors[i]? = some { index := i } ∧
      i ≠ PromiseResultSupplier.new.executorIndex_ ∧
      ({ PromiseResultSupplier.new with executorIndex_ := i } :
        PromiseResultSupplier).isAwaitingExecutor = true) ∧
    ((ExecutorPool.new k activeExecutor).executors.map Executor.index).Nodup := by
  have hM : UINT16_MOD = 2 ^ 16 := rfl
  constructor
  · intro i hi
    have hmod : i % UINT16_MOD = i := Nat.mod_eq_of_lt (by rw [hM]; omega)
    refine ⟨?_, ?_, ?_⟩
    · rw [ExecutorPool.new_executor_at k i activeExecutor hi, hmod]
    · show i ≠ UINT16_MOD - 1
      rw [hM]
      omega
    · show decide (i < UINT16_MOD - 1) = true
      rw [hM]
      exact decide_eq_true (by omega)
  · have hmap : (ExecutorPool.new k activeExecutor).executors.map Executor.index
        = (List.range k).map (fun i => i % UINT16_MOD) := by
      simp [ExecutorPool.new, List.map_map, Function.comp_def]
    rw [hmap]
    have hid : (List.range k).map (fun i => i % UINT16_MOD) = (List.range k).map id := by
      apply List.map_congr_left
      intro i hi
      have := List.mem_range.1 hi
      exact Nat.mod_eq_of_lt (by rw [hM]; omega)
    rw [hid, List.map_id]
    exact List.nodup_range k

/-- Witness of C20: the pool of three executors. -/
theorem ExecutorPool.new_indices_usable_witness :
    3 < 2 ^ 16 ∧
    ((∀ i, i < 3 → (ExecutorPool.new 3 none).executors[i]? = some { index := i } ∧
      i ≠ PromiseResultSupplier.new.executorIndex_ ∧
      ({ PromiseResultSupplier.new with executorIndex_ := i } :
        PromiseResultSupplier).isAwaitingExecutor = true) ∧
    ((ExecutorPool.new 3 none).executors.map Executor.index).Nodup) :=
  ⟨by decide, ExecutorPool.new_indices_usable 3 none (by decide)⟩

/-! ## Claims on the wake protocol and the states of the supplier -/

/-- C12 (code at the failing input): on a fresh supplier of a type whose assignment operator is
not trivial (an `std::string`), `setResult` takes the pool lock and then assigns to the member
`value` of a union whose active member is `emptyByte`, which is undefined: the claim has it
write the `ValueResult` state and release the lock. This holds for every such supplier, value
and pool. For `int` the same call returns with the state written, the lock released and no
executor notified. -/
theorem PromiseResultSupplierTemplate.setResult_on_unconstructed_value :
    (∀ unfinished : Nat → ExecutorPool → Outcome (Exn Unit) ExecutorPool,
      (PromiseResultSupplierTemplate.new : PromiseResultSupplierTemplate String Unit).setResult
          false unfinished "x" (ExecutorPool.new 1 none) = .undefined) ∧
    (∀ (T E : Type) (unfinished : Nat → ExecutorPool → Outcome (Exn E) ExecutorPool)
        (base : PromiseResultSupplier) (v : T) (pool : ExecutorPool),
      (⟨base, .emptyByte⟩ : PromiseResultSupplierTemplate T E).setResult
          false unfinished v pool = .undefined) ∧
    (∀ unfinished : Nat → ExecutorPool → Outcome (Exn Unit) ExecutorPool,
      (PromiseResultSupplierTemplate.new : PromiseResultSupplierTemplate Nat Unit).setResult
          true unfinished 42 (ExecutorPool.new 1 none)
        = .returned (⟨⟨.ValueResult, 0, 1, 65535⟩, .value 42⟩,
            ⟨[⟨0⟩], none, false, [.lock, .write, .unlock]⟩) ∧
      notified [Event.lock, .write, .unlock] = []) := by
  refine ⟨fun _ => rfl, ?_, fun _ => ⟨rfl, rfl⟩⟩
  intro T E unfinished base v pool
  unfold PromiseResultSupplierTemplate.setResult
  cases hb : pool.locked with
  | true => simp [ExecutorPool.lock, hb, Outcome.bind]
  | false => simp [ExecutorPool.lock, hb, Outcome.bind, ResultUnion.assignValue]

/-- C15 as stated fails: on a pool of two executors with none active, after `setResult(7)` on
a fresh promise, the caller takes the pool lock and calls `notifyExecutorAndUnlock(1)`. The
trace is lock, write, unlock, lock, unlock, notify: the notify event of the executor occurs
after the unlock event of the pool lock, and the lock is not held when the wake signal is
sent. -/
theorem ExecutorPool.notifyExecutorAndUnlock_notifies_after_unlock :
    (Promise.setResult true ExecutorPool.notReached
        (Promise.new (ExecutorPool.new 2 none) : Shared Nat Unit) 7).bind
      (fun p => (p.executorPool_.lock : Outcome (Exn Unit) ExecutorPool).bind
        (fun pool => pool.notifyExecutorAndUnlock ExecutorPool.notReached 1))
      = .returned (true, ⟨[⟨0⟩, ⟨1⟩], none, false,
          [.lock, .write, .unlock, .lock, .unlock, .notify 1]⟩) := by
  decide

/-- C15 (amended): in the event trace of a fulfilment the pool lock is held across the state
write and not across the wake signal. For every pool with its lock free and no active
executor, `setResult` on a supplier adds the events lock, write, unlock, followed by the notify
event of the awaiting executor when one is registered; and `notifyExecutorAndUnlock`, called
with the lock held, adds unlock and then notify: the notify event occurs after the unlock
event of the pool lock. -/
theorem PromiseResultSupplierTemplate.setResult_trace {T E : Type} (trivialT : Bool)
    (unfinished : Nat → ExecutorPool → Outcome (Exn E) ExecutorPool)
    (s : PromiseResultSupplierTemplate T E) (v : T) (pool : ExecutorPool) (index : Nat)
    (hfree : pool.locked = false) (hact : pool.activeExecutor = none)
    (hT : trivialT = true ∨ ∃ v0, s.result_ = ResultUnion.value v0)
    (hidx : s.isAwaitingExecutor = true → s.executorIndex_ < pool.executors.length)
    (hindex : index < pool.executors.length) :
    (∃ s1 pool1, s.setResult trivialT unfinished v pool = .returned (s1, pool1) ∧
      s1.state_ = State.ValueResult ∧ pool1.locked = false ∧
      pool1.trace = pool.trace ++ [Event.lock, Event.write, Event.unlock] ++
        (if s.isAwaitingExecutor then [Event.notify s.executorIndex_] else [])) ∧
    ((pool.lock : Outcome (Exn E) ExecutorPool).bind
        (fun poolL => poolL.notifyExecutorAndUnlock unfinished index)
      = .returned (true, { pool with
          locked := false,
          trace := pool.trace ++ [Event.lock, Event.unlock, Event.notify index] })) := by
  constructor
  · cases haw : s.isAwaitingExecutor with
    | false =>
      refine ⟨_, _, PromiseResultSupplierTemplate.setResult_not_awaiting trivialT unfinished
        s v pool haw hfree hT, rfl, rfl, ?_⟩
      simp
    | true =>
      refine ⟨_, _, PromiseResultSupplierTemplate.setResult_notifies trivialT unfinished
        s v pool haw hfree hT hact (hidx haw), rfl, rfl, ?_⟩
      simp
  · simp [ExecutorPool.lock, hfree, Outcome.bind, ExecutorPool.notifyExecutorAndUnlock, hact,
      ExecutorPool.unlock, ExecutorPool.notifyAt, hindex]

/-- Witness of C15: a pool of two executors, none active, a fresh supplier of `int`, and the
executor at position 1. -/
theorem PromiseResultSupplierTemplate.setResult_trace_witness :
    (∃ s1 pool1, (PromiseResultSupplierTemplate.new :
          PromiseResultSupplierTemplate Nat Unit).setResult true ExecutorPool.notReached 7
          (ExecutorPool.new 2 none) = .returned (s1, pool1) ∧
      s1.state_ = State.ValueResult ∧ pool1.locked = false ∧
      pool1.trace = (ExecutorPool.new 2 none).trace ++ [Event.lock, Event.write, Event.unlock] ++
        (if (PromiseResultSupplierTemplate.new :
            PromiseResultSupplierTemplate Nat Unit).isAwaitingExecutor
          then [Event.notify (PromiseResultSupplierTemplate.new :
            PromiseResultSupplierTemplate Nat Unit).executorIndex_] else [])) ∧
    (((ExecutorPool.new 2 none).lock : Outcome (Exn Unit) ExecutorPool).bind
        (fun poolL => poolL.notifyExecutorAndUnlock ExecutorPool.notReached 1)
      = .returned (true, { ExecutorPool.new 2 none with
          locked := false,
          trace := (ExecutorPool.new 2 none).trace ++
            [Event.lock, Event.unlock, Event.notify 1] })) :=
  PromiseResultSupplierTemplate.setResult_trace true ExecutorPool.notReached
    (PromiseResultSupplierTemplate.new : PromiseResultSupplierTemplate Nat Unit) 7
    (ExecutorPool.new 2 none) 1 rfl rfl (Or.inl rfl) (by decide) (by decide)

end turquoise
